import Mathlib

/-!
SimpleVector: a verification development.

Shallow embedding of `simple-vector/array_ptr.h` and
`simple-vector/simple_vector.h`.

Modelling conventions.

* A heap array is the list of its cells. An `ArrayPtr` is modelled by the
  cells its raw pointer addresses; the null pointer addresses no cell, so it
  is the empty list (`new Type[0]` is never executed: `ArrayPtr(size_t)` maps
  size 0 to `nullptr`).
* A pointer into a buffer is the offset from `Get()`; `begin()` is offset 0 and
  `end()` is offset `size_`. Offsets are natural numbers, so an iterator
  before `begin()` is not represented.
* Every cell access is checked against the extent of the buffer: an access
  outside it is undefined behaviour in C++ and is the fault
  `Fault.out_of_bounds` here. A failing `assert` is `Fault.assertion`, an
  iterator pair with `last` before `first` is `Fault.invalid_range`, and the
  exception `std::out_of_range` is `Fault.out_of_range`. Allocation is taken
  to succeed.
* `Type()` and the empty braced initialiser are `default`. `new Type[n]` is modelled as `n` cells
  holding `default` (for trivially constructible element types C++ leaves them
  indeterminate; the statements below only speak about cells that the code
  has written).
* Moving an element is modelled as copying it: the moved-from cell keeps a
  valid but unspecified value in C++ and is either overwritten, past the new
  length or part of a buffer that is released.
* The `value` parameter of `Insert` is a reference (`ValueRef`): either to an
  object outside the buffer, given by its value, or to a cell of the buffer of
  the vector itself; it is read at the point where the source reads it. The
  `item` parameter of `PushBack` and the fill value of the sized constructor
  are read before any cell they could refer to is changed, so they are the
  value they refer to.
* Two vector arguments of an operation are the states of two objects; an
  operation that changes its argument returns the new state of that argument
  next to the new state of `*this`.
* The element operators `==` and `<` are the `BEq` and `LT` instances of the
  element type; nothing is assumed about them unless a statement says so.
* `size_t` is `Nat`. The only arithmetic that could wrap is `capacity_ * 2`,
  evaluated when `size_ >= capacity_`; the `size_` live cells then exist in
  memory, which keeps the product below `2^64`.
-/

namespace SimpleVectorModel

/-- Ways in which an operation can fail to return normally. -/
inductive Fault where
  | out_of_range
  | assertion
  | out_of_bounds
  | invalid_range
  deriving DecidableEq, Repr

deriving instance DecidableEq for Except

/-! ## array_ptr.h -/

/-- Model of `ArrayPtr<Type>`: the cells addressed by `raw_ptr_` (`[]` for `nullptr`). -/
structure ArrayPtr (T : Type) where
  raw_ptr_ : List T
  deriving DecidableEq, Repr

namespace ArrayPtr

variable {T : Type}

/-- Model of `ArrayPtr() = default`: the null pointer. -/
def null : ArrayPtr T := ⟨[]⟩

/-- Model of `explicit ArrayPtr(size_t size)`. -/
def ofSize [Inhabited T] (size : Nat) : ArrayPtr T :=
  if size = 0 then ⟨[]⟩ else ⟨List.replicate size default⟩

/-- Number of cells the handle addresses. -/
def extent (p : ArrayPtr T) : Nat := p.raw_ptr_.length

/-- Reading `operator[](index)`, i.e. `*(raw_ptr_ + index)`. -/
def read (p : ArrayPtr T) (index : Nat) : Except Fault T :=
  match p.raw_ptr_[index]? with
  | some x => .ok x
  | none => .error .out_of_bounds

/-- Assigning through `operator[](index)`. -/
def write (p : ArrayPtr T) (index : Nat) (x : T) : Except Fault (ArrayPtr T) :=
  if index < p.raw_ptr_.length then .ok ⟨p.raw_ptr_.set index x⟩
  else .error .out_of_bounds

/-- Model of the move constructor `ArrayPtr(ArrayPtr&& other)` and of the move
assignment `operator=(ArrayPtr&& other)`, both
`raw_ptr_ = std::exchange(other.raw_ptr_, nullptr)`: the new `*this` and the
new `other`. -/
def move_from (other : ArrayPtr T) : ArrayPtr T × ArrayPtr T := (⟨other.raw_ptr_⟩, ⟨[]⟩)

end ArrayPtr

/-! ## The `<algorithm>` loops used by the vector -/

section Algorithms

variable {T : Type}

/-- Body of `std::copy` / `std::move` between two distinct buffers: `n` cells
from `src + first` to `dst + d_first`, front to back. -/
def copy_n : Nat → ArrayPtr T → Nat → ArrayPtr T → Nat → Except Fault (ArrayPtr T)
  | 0, _, _, dst, _ => .ok dst
  | n + 1, src, first, dst, d_first =>
    match src.read first with
    | .error e => .error e
    | .ok x =>
      match dst.write d_first x with
      | .error e => .error e
      | .ok dst1 => copy_n n src (first + 1) dst1 (d_first + 1)

/-- Model of `std::copy(src + first, src + last, dst + d_first)` (also the algorithm
`std::move`) into another buffer. -/
def copy (src : ArrayPtr T) (first last : Nat) (dst : ArrayPtr T) (d_first : Nat) :
    Except Fault (ArrayPtr T) :=
  if last < first then .error .invalid_range
  else copy_n (last - first) src first dst d_first

/-- Body of the algorithm `std::move` inside one buffer, front to back. -/
def move_n : Nat → ArrayPtr T → Nat → Nat → Except Fault (ArrayPtr T)
  | 0, buf, _, _ => .ok buf
  | n + 1, buf, first, d_first =>
    match buf.read first with
    | .error e => .error e
    | .ok x =>
      match buf.write d_first x with
      | .error e => .error e
      | .ok buf1 => move_n n buf1 (first + 1) (d_first + 1)

/-- Model of `std::move(buf + first, buf + last, buf + d_first)` inside one buffer. -/
def move_within (buf : ArrayPtr T) (first last d_first : Nat) : Except Fault (ArrayPtr T) :=
  if last < first then .error .invalid_range
  else move_n (last - first) buf first d_first

/-- Body of `std::copy_backward` / `std::move_backward` inside one buffer,
back to front: `*(--d_last) = *(--last)`, `n` times. -/
def copy_backward_n : Nat → ArrayPtr T → Nat → Nat → Except Fault (ArrayPtr T)
  | 0, buf, _, _ => .ok buf
  | n + 1, buf, last, d_last =>
    if last = 0 ∨ d_last = 0 then .error .out_of_bounds
    else
      match buf.read (last - 1) with
      | .error e => .error e
      | .ok x =>
        match buf.write (d_last - 1) x with
        | .error e => .error e
        | .ok buf1 => copy_backward_n n buf1 (last - 1) (d_last - 1)

/-- Model of `std::copy_backward(buf + first, buf + last, buf + d_last)` (also
`std::move_backward`) inside one buffer. -/
def copy_backward (buf : ArrayPtr T) (first last d_last : Nat) : Except Fault (ArrayPtr T) :=
  if last < first then .error .invalid_range
  else copy_backward_n (last - first) buf last d_last

/-- The loop `for (i = first; i < first + n; ++i) buf[i] = x`: the body of
`std::generate` with a generator that always returns `x`, and the
default-filling loop of `Resize`. -/
def assign_n : Nat → ArrayPtr T → Nat → T → Except Fault (ArrayPtr T)
  | 0, buf, _, _ => .ok buf
  | n + 1, buf, first, x =>
    match buf.write first x with
    | .error e => .error e
    | .ok buf1 => assign_n n buf1 (first + 1) x

/-- Model of `std::generate(buf + first, buf + last, gen)` for a generator `gen`
that always returns `x`. -/
def generate (buf : ArrayPtr T) (first last : Nat) (x : T) : Except Fault (ArrayPtr T) :=
  if last < first then .error .invalid_range
  else assign_n (last - first) buf first x

/-- Body of `std::equal(a + first1, a + first1 + n, b + first2)`: stops with
`false` at the first pair that is not `==`. -/
def equal_n [BEq T] : Nat → ArrayPtr T → Nat → ArrayPtr T → Nat → Except Fault Bool
  | 0, _, _, _, _ => .ok true
  | n + 1, a, first1, b, first2 =>
    match a.read first1 with
    | .error e => .error e
    | .ok x =>
      match b.read first2 with
      | .error e => .error e
      | .ok y => if !(x == y) then .ok false else equal_n n a (first1 + 1) b (first2 + 1)

/-- Model of `std::equal(a + first1, a + last1, b + first2)`. -/
def equal [BEq T] (a : ArrayPtr T) (first1 last1 : Nat) (b : ArrayPtr T) (first2 : Nat) :
    Except Fault Bool :=
  if last1 < first1 then .error .invalid_range
  else equal_n (last1 - first1) a first1 b first2

/-- Body of `std::lexicographical_compare` with `n` cells left in the first
range: the loop runs while neither range is exhausted, returns `true` at the
first pair with `x < y` and `false` at the first pair with `y < x`; after the
loop the result is `(first1 == last1) && (first2 != last2)`. -/
def lexicographical_compare_n [LT T] [∀ x y : T, Decidable (x < y)] :
    Nat → ArrayPtr T → Nat → ArrayPtr T → Nat → Nat → Except Fault Bool
  | 0, _, _, _, first2, last2 => .ok (first2 != last2)
  | n + 1, a, first1, b, first2, last2 =>
    if first2 = last2 then .ok false
    else
      match a.read first1 with
      | .error e => .error e
      | .ok x =>
        match b.read first2 with
        | .error e => .error e
        | .ok y =>
          if x < y then .ok true
          else if y < x then .ok false
          else lexicographical_compare_n n a (first1 + 1) b (first2 + 1) last2

/-- Model of `std::lexicographical_compare(a + first1, a + last1, b + first2,
b + last2)`. -/
def lexicographical_compare [LT T] [∀ x y : T, Decidable (x < y)] (a : ArrayPtr T)
    (first1 last1 : Nat) (b : ArrayPtr T) (first2 last2 : Nat) : Except Fault Bool :=
  if last1 < first1 ∨ last2 < first2 then .error .invalid_range
  else lexicographical_compare_n (last1 - first1) a first1 b first2 last2

end Algorithms

/-! ## simple_vector.h -/

/-- A `const Type&` or `Type&&` argument that may refer into the buffer of the
vector it is passed to: a reference to an object outside that buffer, given by
its value, or a reference to the cell of that buffer at the given offset. -/
inductive ValueRef (T : Type) where
  | external (x : T)
  | cell (index : Nat)
  deriving DecidableEq, Repr

/-- Reading through the reference while the cells it may refer to are `buf`. -/
def ValueRef.get {T : Type} (r : ValueRef T) (buf : ArrayPtr T) : Except Fault T :=
  match r with
  | .external x => .ok x
  | .cell index => buf.read index

/-- Model of `class ReserveProxyObj`: the capacity request. -/
structure ReserveProxyObj where
  capacity_to_reserve_ : Nat
  deriving DecidableEq, Repr

/-- Model of `ReserveProxyObj::GetCapacity()`. -/
def ReserveProxyObj.GetCapacity (p : ReserveProxyObj) : Nat := p.capacity_to_reserve_

/-- Model of the free function `ReserveProxyObj Reserve(size_t capacity_to_reserve)`. -/
def Reserve (capacity_to_reserve : Nat) : ReserveProxyObj := ⟨capacity_to_reserve⟩

/-- Model of `SimpleVector<Type>`: the three data members. -/
structure SimpleVector (T : Type) where
  items_ : ArrayPtr T
  size_ : Nat
  capacity_ : Nat
  deriving DecidableEq, Repr

namespace SimpleVector

variable {T : Type}

/-- Model of `SimpleVector() noexcept = default`. -/
def empty : SimpleVector T := ⟨ArrayPtr.null, 0, 0⟩

/-- Model of `GetSize()`. -/
def GetSize (v : SimpleVector T) : Nat := v.size_

/-- Model of `GetCapacity()`. -/
def GetCapacity (v : SimpleVector T) : Nat := v.capacity_

/-- Model of `IsEmpty()`. -/
def IsEmpty (v : SimpleVector T) : Bool := v.size_ == 0

/-- The logical elements: the cells at offsets `[0, size_)` of the buffer. -/
def elems (v : SimpleVector T) : List T := v.items_.raw_ptr_.take v.size_

/-- The data-model invariant: `length <= capacity` and the storage holds at
least `capacity` cells. -/
def Inv (v : SimpleVector T) : Prop :=
  v.size_ ≤ v.capacity_ ∧ v.capacity_ ≤ v.items_.extent

instance (v : SimpleVector T) : Decidable v.Inv :=
  inferInstanceAs (Decidable (v.size_ ≤ v.capacity_ ∧ v.capacity_ ≤ v.items_.extent))

/-- Model of `explicit SimpleVector(size_t size)`. -/
def ofSize [Inhabited T] (size : Nat) : Except Fault (SimpleVector T) :=
  match generate (ArrayPtr.ofSize size) 0 size default with
  | .error e => .error e
  | .ok items => .ok ⟨items, size, size⟩

/-- Model of `SimpleVector(size_t size, const Type& value)`. -/
def ofSizeValue [Inhabited T] (size : Nat) (value : T) : Except Fault (SimpleVector T) :=
  match generate (ArrayPtr.ofSize size) 0 size value with
  | .error e => .error e
  | .ok items => .ok ⟨items, size, size⟩

/-- Model of `SimpleVector(std::initializer_list<Type> init)`. -/
def ofList [Inhabited T] (init : List T) : Except Fault (SimpleVector T) :=
  match copy ⟨init⟩ 0 init.length (ArrayPtr.ofSize init.length) 0 with
  | .error e => .error e
  | .ok items => .ok ⟨items, init.length, init.length⟩

/-- Model of `void Reserve(size_t new_capacity)`. -/
def Reserve [Inhabited T] (v : SimpleVector T) (new_capacity : Nat) :
    Except Fault (SimpleVector T) :=
  if new_capacity > v.capacity_ then
    match copy v.items_ 0 v.size_ (ArrayPtr.ofSize new_capacity) 0 with
    | .error e => .error e
    | .ok temp => .ok ⟨temp, v.size_, new_capacity⟩
  else .ok v

/-- Model of `Type& operator[](size_t index) noexcept`, with its `assert`. -/
def operator_subscript (v : SimpleVector T) (index : Nat) : Except Fault T :=
  if index ≤ v.size_ then v.items_.read index else .error .assertion

/-- Model of `const Type& operator[](size_t index) const noexcept`, with its `assert`. -/
def operator_subscript_const (v : SimpleVector T) (index : Nat) : Except Fault T :=
  if index ≤ v.size_ then v.items_.read index else .error .assertion

/-- Model of `Type& At(size_t index)`. -/
def At (v : SimpleVector T) (index : Nat) : Except Fault T :=
  if index ≥ v.size_ then .error .out_of_range else v.items_.read index

/-- Model of `const Type& At(size_t index) const`. -/
def At_const (v : SimpleVector T) (index : Nat) : Except Fault T :=
  if index ≥ v.size_ then .error .out_of_range else v.items_.read index

/-- Model of `void Clear() noexcept`. -/
def Clear (v : SimpleVector T) : SimpleVector T := { v with size_ := 0 }

/-- Model of `void Resize(size_t new_size)`: three consecutive `if` statements. -/
def Resize [Inhabited T] (v : SimpleVector T) (new_size : Nat) :
    Except Fault (SimpleVector T) :=
  let v1 : SimpleVector T := if new_size ≤ v.size_ then { v with size_ := new_size } else v
  let r2 : Except Fault (SimpleVector T) :=
    if new_size > v1.size_ ∧ new_size ≤ v1.capacity_ then
      match assign_n (new_size - v1.size_) v1.items_ v1.size_ default with
      | .error e => .error e
      | .ok items => .ok { v1 with items_ := items, size_ := new_size }
    else .ok v1
  match r2 with
  | .error e => .error e
  | .ok v2 =>
    if new_size > v2.capacity_ then
      match ofSize (max new_size (v2.capacity_ * 2)) with
      | .error e => .error e
      | .ok new_vector =>
        -- for (i = 0; i < size_; ++i) new_vector.items_[i] = std::move(items_[i]);
        match copy_n v2.size_ v2.items_ 0 new_vector.items_ 0 with
        | .error e => .error e
        | .ok items =>
          -- new_vector.size_ = new_size; swap(new_vector);
          .ok ⟨items, new_size, new_vector.capacity_⟩
    else .ok v2

/-- Model of `void PushBack(const Type& item)`. -/
def PushBack [Inhabited T] (v : SimpleVector T) (item : T) : Except Fault (SimpleVector T) :=
  if v.size_ < v.capacity_ then
    match v.items_.write v.size_ item with
    | .error e => .error e
    | .ok items => .ok ⟨items, v.size_ + 1, v.capacity_⟩
  else
    let new_capacity := if v.capacity_ = 0 then 1 else v.capacity_ * 2
    match copy v.items_ 0 v.size_ (ArrayPtr.ofSize new_capacity) 0 with
    | .error e => .error e
    | .ok temp =>
      -- items_.swap(temp); items_[size_] = item;
      match temp.write v.size_ item with
      | .error e => .error e
      | .ok items => .ok ⟨items, v.size_ + 1, new_capacity⟩

/-- Model of `Iterator Insert(ConstIterator pos, const Type& value)`: `pos` is the
offset of the iterator from `begin()`, the result carries the offset of the
returned iterator. The reference `value` is read where the source reads it:
after `copy_backward` has shifted the cells when there is room, and from the
untouched old buffer when the vector reallocates. -/
def Insert [Inhabited T] (v : SimpleVector T) (pos : Nat) (value : ValueRef T) :
    Except Fault (SimpleVector T × Nat) :=
  if ¬ pos ≤ v.size_ then .error .assertion
  else
    let dist := pos
    if v.size_ < v.capacity_ then
      match copy_backward v.items_ pos v.size_ (v.size_ + 1) with
      | .error e => .error e
      | .ok items1 =>
        -- items_[dist] = value;
        match value.get items1 with
        | .error e => .error e
        | .ok x =>
          match items1.write dist x with
          | .error e => .error e
          | .ok items2 => .ok (⟨items2, v.size_ + 1, v.capacity_⟩, dist)
    else
      let new_capacity := if v.capacity_ = 0 then 1 else v.capacity_ * 2
      match copy v.items_ 0 pos (ArrayPtr.ofSize new_capacity) 0 with
      | .error e => .error e
      | .ok temp1 =>
        -- temp[dist] = value;
        match value.get v.items_ with
        | .error e => .error e
        | .ok x =>
          match temp1.write dist x with
          | .error e => .error e
          | .ok temp2 =>
            match copy v.items_ pos v.size_ temp2 (dist + 1) with
            | .error e => .error e
            | .ok temp3 => .ok (⟨temp3, v.size_ + 1, new_capacity⟩, dist)

/-- Model of `void PopBack() noexcept`. -/
def PopBack (v : SimpleVector T) : Except Fault (SimpleVector T) :=
  if v.size_ ≠ 0 then .ok { v with size_ := v.size_ - 1 } else .error .assertion

/-- Model of `Iterator Erase(ConstIterator pos)`: `pos` is an offset from `begin()`, the
result carries the offset of the returned iterator. -/
def Erase (v : SimpleVector T) (pos : Nat) : Except Fault (SimpleVector T × Nat) :=
  if ¬ pos ≤ v.size_ then .error .assertion
  else if ¬ v.size_ ≠ 0 then .error .assertion
  else
    let dis := pos
    match move_within v.items_ (dis + 1) v.size_ dis with
    | .error e => .error e
    | .ok items => .ok (⟨items, v.size_ - 1, v.capacity_⟩, pos)

/-- Model of `void swap(SimpleVector& other) noexcept`: the new `*this` and the new
`other`. -/
def swap (v other : SimpleVector T) : SimpleVector T × SimpleVector T := (other, v)

/-- Model of `void PushBack(Type&& item)`. -/
def PushBack_rvalue [Inhabited T] (v : SimpleVector T) (item : T) :
    Except Fault (SimpleVector T) :=
  if v.size_ < v.capacity_ then
    match v.items_.write v.size_ item with
    | .error e => .error e
    | .ok items => .ok ⟨items, v.size_ + 1, v.capacity_⟩
  else
    let new_capacity := if v.capacity_ = 0 then 1 else v.capacity_ * 2
    match copy v.items_ 0 v.size_ (ArrayPtr.ofSize new_capacity) 0 with
    | .error e => .error e
    | .ok temp1 =>
      -- temp[size_] = std::move(item); items_.swap(temp);
      match temp1.write v.size_ item with
      | .error e => .error e
      | .ok temp2 => .ok ⟨temp2, v.size_ + 1, new_capacity⟩

/-- Model of `Iterator Insert(Iterator pos, Type&& value)`. The reference
`value` is read after `move_backward` when there is room, and from the old
buffer (whose moved-from cells keep their value in this model) when the vector
reallocates. -/
def Insert_rvalue [Inhabited T] (v : SimpleVector T) (pos : Nat) (value : ValueRef T) :
    Except Fault (SimpleVector T × Nat) :=
  if ¬ pos ≤ v.size_ then .error .assertion
  else
    let dist := pos
    if v.size_ < v.capacity_ then
      match copy_backward v.items_ pos v.size_ (v.size_ + 1) with
      | .error e => .error e
      | .ok items1 =>
        -- items_[dist] = std::move(value);
        match value.get items1 with
        | .error e => .error e
        | .ok x =>
          match items1.write dist x with
          | .error e => .error e
          | .ok items2 => .ok (⟨items2, v.size_ + 1, v.capacity_⟩, dist)
    else
      let new_capacity := if v.capacity_ = 0 then 1 else v.capacity_ * 2
      match copy v.items_ 0 dist (ArrayPtr.ofSize new_capacity) 0 with
      | .error e => .error e
      | .ok temp1 =>
        -- temp[dist] = std::move(value);
        match value.get v.items_ with
        | .error e => .error e
        | .ok x =>
          match temp1.write dist x with
          | .error e => .error e
          | .ok temp2 =>
            match copy v.items_ dist v.size_ temp2 (dist + 1) with
            | .error e => .error e
            | .ok temp3 => .ok (⟨temp3, v.size_ + 1, new_capacity⟩, dist)

/-- Model of `operator==` on vectors. -/
def operator_eq [BEq T] (lhs rhs : SimpleVector T) : Except Fault Bool :=
  if lhs.GetSize ≠ rhs.GetSize then .ok false
  else equal lhs.items_ 0 lhs.size_ rhs.items_ 0

/-- Model of `operator!=` on vectors: `!(lhs == rhs)`. -/
def operator_ne [BEq T] (lhs rhs : SimpleVector T) : Except Fault Bool :=
  match operator_eq lhs rhs with
  | .error e => .error e
  | .ok b => .ok (!b)

/-- Model of the copy constructor `SimpleVector(const SimpleVector& other)`. -/
def ofCopy [Inhabited T] (other : SimpleVector T) : Except Fault (SimpleVector T) :=
  match copy other.items_ 0 other.size_ (ArrayPtr.ofSize other.size_) 0 with
  | .error e => .error e
  | .ok temp =>
    -- items_.swap(temp); size_ = other.size_; capacity_ = other.capacity_;
    .ok ⟨temp, other.size_, other.capacity_⟩

/-- Model of `SimpleVector(ReserveProxyObj capacity)`: only `capacity_` is set. -/
def ofReserve (capacity : ReserveProxyObj) : SimpleVector T :=
  ⟨ArrayPtr.null, 0, capacity.GetCapacity⟩

/-- Model of the move constructor `SimpleVector(SimpleVector&& other)`: the new
vector and the new state of `other`. -/
def ofMove (other : SimpleVector T) : SimpleVector T × SimpleVector T :=
  (⟨(ArrayPtr.move_from other.items_).1, other.size_, other.capacity_⟩,
    ⟨(ArrayPtr.move_from other.items_).2, 0, 0⟩)

/-- Model of `void swap(SimpleVector&& other) noexcept`: the new `*this` and the
new `other`. -/
def swap_rvalue (v other : SimpleVector T) : SimpleVector T × SimpleVector T :=
  (⟨other.items_, other.size_, other.capacity_⟩, ⟨v.items_, v.size_, v.capacity_⟩)

/-- Model of `SimpleVector& operator=(const SimpleVector& rhs)`: the new `*this`
and `rhs`, which is `const`. -/
def operator_assign [BEq T] [Inhabited T] (v rhs : SimpleVector T) :
    Except Fault (SimpleVector T × SimpleVector T) :=
  match operator_ne v rhs with
  | .error e => .error e
  | .ok true =>
    match ofCopy rhs with
    | .error e => .error e
    | .ok temp => .ok ((swap v temp).1, rhs)
  | .ok false => .ok (v, rhs)

/-- Model of `SimpleVector operator=(SimpleVector&& rhs)`: the new `*this`, the
new `rhs`, and the vector returned by value (a copy of `*this`). -/
def operator_assign_rvalue [BEq T] [Inhabited T] (v rhs : SimpleVector T) :
    Except Fault (SimpleVector T × SimpleVector T × SimpleVector T) :=
  match operator_ne v rhs with
  | .error e => .error e
  | .ok true =>
    -- SimpleVector temp = std::move(rhs); swap(temp);
    match ofCopy (swap v (ofMove rhs).1).1 with
    | .error e => .error e
    | .ok result => .ok ((swap v (ofMove rhs).1).1, (ofMove rhs).2, result)
  | .ok false =>
    match ofCopy v with
    | .error e => .error e
    | .ok result => .ok (v, rhs, result)

/-- Model of `operator<` on vectors. -/
def operator_lt [LT T] [∀ x y : T, Decidable (x < y)] (lhs rhs : SimpleVector T) :
    Except Fault Bool :=
  lexicographical_compare lhs.items_ 0 lhs.size_ rhs.items_ 0 rhs.size_

/-- Model of `operator>` on vectors: `rhs < lhs`. -/
def operator_gt [LT T] [∀ x y : T, Decidable (x < y)] (lhs rhs : SimpleVector T) :
    Except Fault Bool :=
  operator_lt rhs lhs

/-- Model of `operator<=` on vectors: `!(lhs > rhs)`. -/
def operator_le [LT T] [∀ x y : T, Decidable (x < y)] (lhs rhs : SimpleVector T) :
    Except Fault Bool :=
  match operator_gt lhs rhs with
  | .error e => .error e
  | .ok b => .ok (!b)

/-- Model of `operator>=` on vectors: `!(lhs < rhs)`. -/
def operator_ge [LT T] [∀ x y : T, Decidable (x < y)] (lhs rhs : SimpleVector T) :
    Except Fault Bool :=
  match operator_lt lhs rhs with
  | .error e => .error e
  | .ok b => .ok (!b)

/-- Capacity left by `PushBack` and `Insert` on a vector of the given size and
capacity: unchanged if there is room, else `capacity == 0 ? 1 : capacity * 2`. -/
def grown (size capacity : Nat) : Nat :=
  if size < capacity then capacity else if capacity = 0 then 1 else 2 * capacity

/-- Calling `PushBack` once per value of `values`, front to back. -/
def PushBack_all [Inhabited T] : SimpleVector T → List T → Except Fault (SimpleVector T)
  | v, [] => .ok v
  | v, x :: xs =>
    match v.PushBack x with
    | .error e => .error e
    | .ok v1 => PushBack_all v1 xs

/-- Calling `PushBack` once per value of `values`, front to back, and counting
the calls that did not take the branch `size_ < capacity_`, that is, the calls
that reallocated. -/
def PushBack_count [Inhabited T] : SimpleVector T → List T → Except Fault (SimpleVector T × Nat)
  | v, [] => .ok (v, 0)
  | v, x :: xs =>
    match v.PushBack x with
    | .error e => .error e
    | .ok v1 =>
      match PushBack_count v1 xs with
      | .error e => .error e
      | .ok r => .ok (r.1, if v.size_ < v.capacity_ then r.2 else r.2 + 1)

/-- The states a vector can be in: the results of the construction forms, and
the results of the public mutating operations applied to such states and
returning normally. -/
inductive Reachable [BEq T] [Inhabited T] : SimpleVector T → Prop where
  | empty : Reachable empty
  | ofSize (n : Nat) (v : SimpleVector T) : ofSize n = .ok v → Reachable v
  | ofSizeValue (n : Nat) (x : T) (v : SimpleVector T) : ofSizeValue n x = .ok v → Reachable v
  | ofList (init : List T) (v : SimpleVector T) : ofList init = .ok v → Reachable v
  | ofCopy (s v : SimpleVector T) : Reachable s → ofCopy s = .ok v → Reachable v
  | ofMove_target (s : SimpleVector T) : Reachable s → Reachable (ofMove s).1
  | ofMove_source (s : SimpleVector T) : Reachable s → Reachable (ofMove s).2
  | ofReserve (n : Nat) : Reachable (ofReserve (SimpleVectorModel.Reserve n))
  | PushBack (v w : SimpleVector T) (x : T) : Reachable v → v.PushBack x = .ok w → Reachable w
  | PushBack_rvalue (v w : SimpleVector T) (x : T) :
      Reachable v → v.PushBack_rvalue x = .ok w → Reachable w
  | Insert (v w : SimpleVector T) (pos i : Nat) (x : ValueRef T) :
      Reachable v → v.Insert pos x = .ok (w, i) → Reachable w
  | Insert_rvalue (v w : SimpleVector T) (pos i : Nat) (x : ValueRef T) :
      Reachable v → v.Insert_rvalue pos x = .ok (w, i) → Reachable w
  | Erase (v w : SimpleVector T) (pos i : Nat) :
      Reachable v → v.Erase pos = .ok (w, i) → Reachable w
  | PopBack (v w : SimpleVector T) : Reachable v → v.PopBack = .ok w → Reachable w
  | Resize (v w : SimpleVector T) (n : Nat) : Reachable v → v.Resize n = .ok w → Reachable w
  | Reserve (v w : SimpleVector T) (n : Nat) : Reachable v → v.Reserve n = .ok w → Reachable w
  | Clear (v : SimpleVector T) : Reachable v → Reachable v.Clear
  | swap_this (v other : SimpleVector T) :
      Reachable v → Reachable other → Reachable (swap v other).1
  | swap_other (v other : SimpleVector T) :
      Reachable v → Reachable other → Reachable (swap v other).2
  | swap_rvalue_this (v other : SimpleVector T) :
      Reachable v → Reachable other → Reachable (swap_rvalue v other).1
  | swap_rvalue_other (v other : SimpleVector T) :
      Reachable v → Reachable other → Reachable (swap_rvalue v other).2
  | operator_assign (v rhs w r : SimpleVector T) :
      Reachable v → Reachable rhs → operator_assign v rhs = .ok (w, r) → Reachable w
  | operator_assign_rvalue_this (v rhs w r t : SimpleVector T) :
      Reachable v → Reachable rhs → operator_assign_rvalue v rhs = .ok (w, r, t) → Reachable w
  | operator_assign_rvalue_source (v rhs w r t : SimpleVector T) :
      Reachable v → Reachable rhs → operator_assign_rvalue v rhs = .ok (w, r, t) → Reachable r
  | operator_assign_rvalue_result (v rhs w r t : SimpleVector T) :
      Reachable v → Reachable rhs → operator_assign_rvalue v rhs = .ok (w, r, t) → Reachable t

end SimpleVector

/-! ## Lemmas about the memory primitives and loops -/

section LoopLemmas

variable {T : Type}

theorem write_ok (p : ArrayPtr T) (i : Nat) (x : T) (h : i < p.raw_ptr_.length) :
    p.write i x = .ok ⟨p.raw_ptr_.set i x⟩ := by
  simp [ArrayPtr.write, h]

theorem copy_n_ok (n : Nat) (src : ArrayPtr T) (first : Nat) (dst : ArrayPtr T) (d : Nat)
    (hs : first + n ≤ src.raw_ptr_.length) (hd : d + n ≤ dst.raw_ptr_.length) :
    copy_n n src first dst d =
      .ok ⟨dst.raw_ptr_.take d ++ (src.raw_ptr_.drop first).take n ++
        dst.raw_ptr_.drop (d + n)⟩ := by
  induction n generalizing first dst d with
  | zero => simp [copy_n]
  | succ n ih =>
    have h2 : d < dst.raw_ptr_.length := by omega
    obtain ⟨x, hx⟩ : ∃ x, src.raw_ptr_[first]? = some x :=
      ⟨_, List.getElem?_eq_getElem (by omega)⟩
    simp only [copy_n, ArrayPtr.read, hx, write_ok _ _ _ h2]
    rw [ih (first + 1) _ (d + 1) (by omega) (by simp; omega)]
    congr 2
    apply List.ext_getElem?
    intro i
    simp only [List.getElem?_append, List.getElem?_take, List.getElem?_drop, List.getElem?_set,
      List.length_take, List.length_drop, List.length_set, List.length_append]
    split_ifs <;> first | omega | rfl | (congr 1; omega) | (rw [← hx]; congr 1; omega)

theorem move_n_ok (n : Nat) (buf : ArrayPtr T) (first d : Nat) (hd : d ≤ first)
    (hs : first + n ≤ buf.raw_ptr_.length) :
    move_n n buf first d =
      .ok ⟨buf.raw_ptr_.take d ++ (buf.raw_ptr_.drop first).take n ++
        buf.raw_ptr_.drop (d + n)⟩ := by
  induction n generalizing buf first d with
  | zero => simp [move_n]
  | succ n ih =>
    have h2 : d < buf.raw_ptr_.length := by omega
    obtain ⟨x, hx⟩ : ∃ x, buf.raw_ptr_[first]? = some x :=
      ⟨_, List.getElem?_eq_getElem (by omega)⟩
    simp only [move_n, ArrayPtr.read, hx, write_ok _ _ _ h2]
    rw [ih _ (first + 1) (d + 1) (by omega) (by simp; omega)]
    congr 2
    apply List.ext_getElem?
    intro i
    simp only [List.getElem?_append, List.getElem?_take, List.getElem?_drop, List.getElem?_set,
      List.length_take, List.length_drop, List.length_set, List.length_append]
    split_ifs <;> first | omega | rfl | (congr 1; omega) | (rw [← hx]; congr 1; omega)

theorem copy_backward_n_ok (n : Nat) (buf : ArrayPtr T) (last d_last : Nat) (hn : n ≤ last)
    (hl : last ≤ d_last) (hd : d_last ≤ buf.raw_ptr_.length) :
    copy_backward_n n buf last d_last =
      .ok ⟨buf.raw_ptr_.take (d_last - n) ++ (buf.raw_ptr_.drop (last - n)).take n ++
        buf.raw_ptr_.drop d_last⟩ := by
  induction n generalizing buf last d_last with
  | zero => simp [copy_backward_n]
  | succ n ih =>
    have h2 : d_last - 1 < buf.raw_ptr_.length := by omega
    have h3 : ¬ (last = 0 ∨ d_last = 0) := by omega
    obtain ⟨x, hx⟩ : ∃ x, buf.raw_ptr_[last - 1]? = some x :=
      ⟨_, List.getElem?_eq_getElem (by omega)⟩
    simp only [copy_backward_n, ArrayPtr.read, hx, write_ok _ _ _ h2, h3, if_false]
    rw [ih _ (last - 1) (d_last - 1) (by omega) (by omega) (by simp; omega)]
    congr 2
    apply List.ext_getElem?
    intro i
    simp only [List.getElem?_append, List.getElem?_take, List.getElem?_drop, List.getElem?_set,
      List.length_take, List.length_drop, List.length_set, List.length_append]
    split_ifs <;> first | omega | rfl | (congr 1; omega) | (rw [← hx]; congr 1; omega)

theorem assign_n_ok (n : Nat) (buf : ArrayPtr T) (first : Nat) (x : T)
    (hs : first + n ≤ buf.raw_ptr_.length) :
    assign_n n buf first x =
      .ok ⟨buf.raw_ptr_.take first ++ List.replicate n x ++ buf.raw_ptr_.drop (first + n)⟩ := by
  induction n generalizing buf first with
  | zero => simp [assign_n]
  | succ n ih =>
    have h2 : first < buf.raw_ptr_.length := by omega
    simp only [assign_n, write_ok _ _ _ h2]
    rw [ih _ (first + 1) (by simp; omega)]
    congr 2
    apply List.ext_getElem?
    intro i
    simp only [List.getElem?_append, List.getElem?_take, List.getElem?_drop, List.getElem?_set,
      List.length_take, List.length_drop, List.length_set, List.length_append,
      List.getElem?_replicate, List.length_replicate]
    split_ifs <;> first | omega | rfl | (congr 1; omega)

theorem ofSize_raw [Inhabited T] (n : Nat) :
    (ArrayPtr.ofSize n : ArrayPtr T).raw_ptr_ = List.replicate n default := by
  unfold ArrayPtr.ofSize
  split
  · subst_vars; rfl
  · rfl

theorem copy_ok (src : ArrayPtr T) (first last : Nat) (dst : ArrayPtr T) (d : Nat)
    (h : first ≤ last) (hs : last ≤ src.raw_ptr_.length)
    (hd : d + (last - first) ≤ dst.raw_ptr_.length) :
    copy src first last dst d =
      .ok ⟨dst.raw_ptr_.take d ++ (src.raw_ptr_.drop first).take (last - first) ++
        dst.raw_ptr_.drop (d + (last - first))⟩ := by
  unfold copy
  rw [if_neg (by omega)]
  exact copy_n_ok _ _ _ _ _ (by omega) hd

theorem move_within_ok (buf : ArrayPtr T) (first last d : Nat) (h : first ≤ last)
    (hd : d ≤ first) (hs : last ≤ buf.raw_ptr_.length) :
    move_within buf first last d =
      .ok ⟨buf.raw_ptr_.take d ++ (buf.raw_ptr_.drop first).take (last - first) ++
        buf.raw_ptr_.drop (d + (last - first))⟩ := by
  unfold move_within
  rw [if_neg (by omega)]
  exact move_n_ok _ _ _ _ hd (by omega)

theorem copy_backward_ok (buf : ArrayPtr T) (first last d_last : Nat) (h : first ≤ last)
    (hl : last ≤ d_last) (hd : d_last ≤ buf.raw_ptr_.length) :
    copy_backward buf first last d_last =
      .ok ⟨buf.raw_ptr_.take (d_last - (last - first)) ++
        (buf.raw_ptr_.drop first).take (last - first) ++ buf.raw_ptr_.drop d_last⟩ := by
  unfold copy_backward
  rw [if_neg (by omega), copy_backward_n_ok _ _ _ _ (by omega) hl hd]
  have e : last - (last - first) = first := by omega
  rw [e]

theorem ofSize_length [Inhabited T] (n : Nat) :
    (ArrayPtr.ofSize n : ArrayPtr T).raw_ptr_.length = n := by
  simp [ofSize_raw]

theorem ofSize_getElem? [Inhabited T] (n j : Nat) :
    (ArrayPtr.ofSize n : ArrayPtr T).raw_ptr_[j]? = if j < n then some default else none := by
  simp [ofSize_raw, List.getElem?_replicate]

theorem write_spec (p : ArrayPtr T) (i : Nat) (x : T) (h : i < p.raw_ptr_.length) :
    ∃ r, p.write i x = .ok r ∧ r.raw_ptr_.length = p.raw_ptr_.length ∧
      ∀ j, r.raw_ptr_[j]? = if j = i then some x else p.raw_ptr_[j]? := by
  refine ⟨_, write_ok p i x h, by simp, fun j => ?_⟩
  simp only [List.getElem?_set]
  split_ifs <;> first | omega | rfl

theorem copy_spec (src : ArrayPtr T) (first last : Nat) (dst : ArrayPtr T) (d : Nat)
    (h : first ≤ last) (hs : last ≤ src.raw_ptr_.length)
    (hd : d + (last - first) ≤ dst.raw_ptr_.length) :
    ∃ r, copy src first last dst d = .ok r ∧ r.raw_ptr_.length = dst.raw_ptr_.length ∧
      ∀ j, r.raw_ptr_[j]? =
        if d ≤ j ∧ j < d + (last - first) then src.raw_ptr_[first + (j - d)]?
        else dst.raw_ptr_[j]? := by
  refine ⟨_, copy_ok src first last dst d h hs hd, ?_, fun j => ?_⟩
  · simp only [List.length_append, List.length_take, List.length_drop]
    omega
  · simp only [List.getElem?_append, List.getElem?_take, List.getElem?_drop,
      List.length_take, List.length_drop, List.length_append]
    split_ifs <;> first | omega | rfl | (congr 1; omega)

theorem copy_n_spec (n : Nat) (src : ArrayPtr T) (first : Nat) (dst : ArrayPtr T) (d : Nat)
    (hs : first + n ≤ src.raw_ptr_.length) (hd : d + n ≤ dst.raw_ptr_.length) :
    ∃ r, copy_n n src first dst d = .ok r ∧ r.raw_ptr_.length = dst.raw_ptr_.length ∧
      ∀ j, r.raw_ptr_[j]? =
        if d ≤ j ∧ j < d + n then src.raw_ptr_[first + (j - d)]? else dst.raw_ptr_[j]? := by
  obtain ⟨r, hr, hl, hg⟩ := copy_spec src first (first + n) dst d (by omega) (by omega)
    (by omega)
  have e : first + n - first = n := by omega
  refine ⟨r, ?_, hl, fun j => ?_⟩
  · rw [← hr]
    unfold copy
    rw [if_neg (by omega), e]
  · rw [hg, e]

theorem move_within_spec (buf : ArrayPtr T) (first last d : Nat) (h : first ≤ last)
    (hd : d ≤ first) (hs : last ≤ buf.raw_ptr_.length) :
    ∃ r, move_within buf first last d = .ok r ∧ r.raw_ptr_.length = buf.raw_ptr_.length ∧
      ∀ j, r.raw_ptr_[j]? =
        if d ≤ j ∧ j < d + (last - first) then buf.raw_ptr_[first + (j - d)]?
        else buf.raw_ptr_[j]? := by
  refine ⟨_, move_within_ok buf first last d h hd hs, ?_, fun j => ?_⟩
  · simp only [List.length_append, List.length_take, List.length_drop]
    omega
  · simp only [List.getElem?_append, List.getElem?_take, List.getElem?_drop,
      List.length_take, List.length_drop, List.length_append]
    split_ifs <;> first | omega | rfl | (congr 1; omega)

theorem copy_backward_spec (buf : ArrayPtr T) (first last d_last : Nat) (h : first ≤ last)
    (hl : last ≤ d_last) (hd : d_last ≤ buf.raw_ptr_.length) :
    ∃ r, copy_backward buf first last d_last = .ok r ∧
      r.raw_ptr_.length = buf.raw_ptr_.length ∧
      ∀ j, r.raw_ptr_[j]? =
        if d_last - (last - first) ≤ j ∧ j < d_last then
          buf.raw_ptr_[first + (j - (d_last - (last - first)))]?
        else buf.raw_ptr_[j]? := by
  refine ⟨_, copy_backward_ok buf first last d_last h hl hd, ?_, fun j => ?_⟩
  · simp only [List.length_append, List.length_take, List.length_drop]
    omega
  · simp only [List.getElem?_append, List.getElem?_take, List.getElem?_drop,
      List.length_take, List.length_drop, List.length_append]
    split_ifs <;> first | omega | rfl | (congr 1; omega)

theorem assign_n_spec (n : Nat) (buf : ArrayPtr T) (first : Nat) (x : T)
    (hs : first + n ≤ buf.raw_ptr_.length) :
    ∃ r, assign_n n buf first x = .ok r ∧ r.raw_ptr_.length = buf.raw_ptr_.length ∧
      ∀ j, r.raw_ptr_[j]? = if first ≤ j ∧ j < first + n then some x else buf.raw_ptr_[j]? := by
  refine ⟨_, assign_n_ok n buf first x hs, ?_, fun j => ?_⟩
  · simp only [List.length_append, List.length_take, List.length_drop, List.length_replicate]
    omega
  · simp only [List.getElem?_append, List.getElem?_take, List.getElem?_drop,
      List.length_take, List.length_drop, List.length_append, List.getElem?_replicate,
      List.length_replicate]
    split_ifs <;> first | omega | rfl | (congr 1; omega)

theorem generate_spec (buf : ArrayPtr T) (first last : Nat) (x : T) (h : first ≤ last)
    (hs : last ≤ buf.raw_ptr_.length) :
    ∃ r, generate buf first last x = .ok r ∧ r.raw_ptr_.length = buf.raw_ptr_.length ∧
      ∀ j, r.raw_ptr_[j]? = if first ≤ j ∧ j < last then some x else buf.raw_ptr_[j]? := by
  obtain ⟨r, hr, hl, hg⟩ := assign_n_spec (last - first) buf first x (by omega)
  refine ⟨r, ?_, hl, fun j => ?_⟩
  · unfold generate
    rw [if_neg (by omega), hr]
  · rw [hg]
    split_ifs <;> first | omega | rfl

theorem equal_n_spec [BEq T] (n : Nat) (a : ArrayPtr T) (f1 : Nat) (b : ArrayPtr T) (f2 : Nat)
    (ha : f1 + n ≤ a.raw_ptr_.length) (hb : f2 + n ≤ b.raw_ptr_.length) :
    ∃ r, equal_n n a f1 b f2 = .ok r ∧
      (r = true ↔ ∀ k, k < n → ∃ x y, a.raw_ptr_[f1 + k]? = some x ∧
        b.raw_ptr_[f2 + k]? = some y ∧ (x == y) = true) := by
  induction n generalizing f1 f2 with
  | zero => exact ⟨true, rfl, by simp⟩
  | succ n ih =>
    obtain ⟨x, hx⟩ : ∃ x, a.raw_ptr_[f1]? = some x :=
      ⟨_, List.getElem?_eq_getElem (by omega)⟩
    obtain ⟨y, hy⟩ : ∃ y, b.raw_ptr_[f2]? = some y :=
      ⟨_, List.getElem?_eq_getElem (by omega)⟩
    simp only [equal_n, ArrayPtr.read, hx, hy]
    by_cases hxy : (x == y) = true
    · obtain ⟨r, hr, hiff⟩ := ih (f1 + 1) (f2 + 1) (by omega) (by omega)
      refine ⟨r, by simp [hxy, hr], ?_⟩
      rw [hiff]
      constructor
      · intro hall k hk
        rcases k with _ | k
        · exact ⟨x, y, by simpa using hx, by simpa using hy, hxy⟩
        · obtain ⟨x1, y1, h1, h2, h3⟩ := hall k (by omega)
          refine ⟨x1, y1, ?_, ?_, h3⟩
          · rw [← h1]; congr 1; omega
          · rw [← h2]; congr 1; omega
      · intro hall k hk
        obtain ⟨x1, y1, h1, h2, h3⟩ := hall (k + 1) (by omega)
        refine ⟨x1, y1, ?_, ?_, h3⟩
        · rw [← h1]; congr 1; omega
        · rw [← h2]; congr 1; omega
    · refine ⟨false, by simp [hxy], ?_⟩
      constructor
      · intro hf; cases hf
      · intro hall
        obtain ⟨x1, y1, h1, h2, h3⟩ := hall 0 (by omega)
        simp only [Nat.add_zero, hx, hy, Option.some.injEq] at h1 h2
        subst h1 h2
        exact absurd h3 hxy

theorem list_nil_lt_iff [LT T] (l : List T) : List.lt [] l ↔ l ≠ [] := by
  cases l with
  | nil => exact ⟨fun h => (nomatch h), fun h => absurd rfl h⟩
  | cons y ys => exact ⟨fun _ => List.cons_ne_nil _ _, fun _ => List.lt.nil _ _⟩

theorem list_not_lt_nil [LT T] (l : List T) : ¬ List.lt l [] := fun h => nomatch h

theorem list_cons_lt_cons_iff [LT T] (x y : T) (xs ys : List T) :
    List.lt (x :: xs) (y :: ys) ↔ x < y ∨ (¬ x < y ∧ ¬ y < x ∧ List.lt xs ys) := by
  constructor
  · intro h
    cases h with
    | head _ _ h1 => exact Or.inl h1
    | tail h1 h2 h3 => exact Or.inr ⟨h1, h2, h3⟩
  · rintro (h | ⟨h1, h2, h3⟩)
    · exact List.lt.head _ _ h
    · exact List.lt.tail h1 h2 h3

theorem take_succ_drop (l : List T) (i n : Nat) (h : i < l.length) :
    (l.drop i).take (n + 1) = l[i] :: (l.drop (i + 1)).take n := by
  rw [List.drop_eq_getElem_cons h, List.take_succ_cons]

theorem lexicographical_compare_n_spec [LT T] [∀ x y : T, Decidable (x < y)] (n : Nat)
    (a : ArrayPtr T) (f1 : Nat) (b : ArrayPtr T) (f2 l2 : Nat)
    (ha : f1 + n ≤ a.raw_ptr_.length) (h2 : f2 ≤ l2) (hb : l2 ≤ b.raw_ptr_.length) :
    ∃ r, lexicographical_compare_n n a f1 b f2 l2 = .ok r ∧
      (r = true ↔
        List.lt ((a.raw_ptr_.drop f1).take n) ((b.raw_ptr_.drop f2).take (l2 - f2))) := by
  induction n generalizing f1 f2 with
  | zero =>
    refine ⟨f2 != l2, rfl, ?_⟩
    rw [List.take_zero, list_nil_lt_iff]
    simp only [bne_iff_ne, ne_eq, List.take_eq_nil_iff, List.drop_eq_nil_iff, not_or, not_le]
    omega
  | succ n ih =>
    by_cases he : f2 = l2
    · refine ⟨false, by simp only [lexicographical_compare_n, if_pos he], ?_⟩
      subst he
      rw [Nat.sub_self, List.take_zero]
      exact ⟨fun h => Bool.noConfusion h, fun h => absurd h (list_not_lt_nil _)⟩
    · have h1 : f1 < a.raw_ptr_.length := by omega
      have h3 : f2 < b.raw_ptr_.length := by omega
      have e2 : l2 - f2 = (l2 - (f2 + 1)) + 1 := by omega
      rw [take_succ_drop _ _ _ h1, e2, take_succ_drop _ _ _ h3, list_cons_lt_cons_iff]
      simp only [lexicographical_compare_n, if_neg he, ArrayPtr.read,
        List.getElem?_eq_getElem h1, List.getElem?_eq_getElem h3]
      by_cases c1 : a.raw_ptr_[f1] < b.raw_ptr_[f2]
      · exact ⟨true, by simp only [if_pos c1], by simp [c1]⟩
      · by_cases c2 : b.raw_ptr_[f2] < a.raw_ptr_[f1]
        · exact ⟨false, by simp only [if_neg c1, if_pos c2], by simp [c1, c2]⟩
        · obtain ⟨r, hr, hiff⟩ := ih (f1 + 1) (f2 + 1) (by omega) (by omega)
          refine ⟨r, by simp only [if_neg c1, if_neg c2, hr], ?_⟩
          rw [hiff]
          simp [c1, c2]

end LoopLemmas

/-! ## Specifications of the operations -/

namespace SimpleVector

variable {T : Type}

theorem elems_getElem? (v : SimpleVector T) (j : Nat) :
    v.elems[j]? = if j < v.size_ then v.items_.raw_ptr_[j]? else none := by
  simp [elems, List.getElem?_take]

theorem elems_length (v : SimpleVector T) :
    v.elems.length = min v.size_ v.items_.raw_ptr_.length := by
  simp [elems]

theorem PushBack_spec [Inhabited T] (v : SimpleVector T) (x : T) (h : v.Inv) :
    ∃ w, v.PushBack x = .ok w ∧ w.Inv ∧ w.elems = v.elems ++ [x] ∧
      w.size_ = v.size_ + 1 ∧ w.capacity_ = grown v.size_ v.capacity_ := by
  obtain ⟨h1, h2⟩ := h
  unfold ArrayPtr.extent at h2
  by_cases hc : v.size_ < v.capacity_
  · obtain ⟨r, hr, hl, hg⟩ := write_spec v.items_ v.size_ x (by omega)
    refine ⟨⟨r, v.size_ + 1, v.capacity_⟩, ?_, ?_, ?_, rfl, ?_⟩
    · simp only [PushBack, if_pos hc, hr]
    · constructor <;> simp [ArrayPtr.extent] <;> omega
    · apply List.ext_getElem?
      intro j
      simp only [elems_getElem?, hg, List.getElem?_append, List.length_take,
        List.getElem?_cons, List.getElem?_nil, elems_length]
      split_ifs <;> first | omega | rfl
    · simp [grown, hc]
  · have hnc : v.size_ < (if v.capacity_ = 0 then 1 else v.capacity_ * 2) := by
      split_ifs <;> omega
    generalize hN : (if v.capacity_ = 0 then 1 else v.capacity_ * 2) = N at hnc
    obtain ⟨t, ht, htl, htg⟩ := copy_spec v.items_ 0 v.size_ (ArrayPtr.ofSize N) 0
      (by omega) (by omega) (by rw [ofSize_length]; omega)
    rw [ofSize_length] at htl
    obtain ⟨r, hr, hl, hg⟩ := write_spec t v.size_ x (by omega)
    refine ⟨⟨r, v.size_ + 1, N⟩, ?_, ?_, ?_, rfl, ?_⟩
    · simp only [PushBack, if_neg hc, hN, ht, hr]
    · constructor <;> simp [ArrayPtr.extent] <;> omega
    · apply List.ext_getElem?
      intro j
      simp only [elems_getElem?, hg, htg, ofSize_getElem?, List.getElem?_append,
        List.getElem?_cons, List.getElem?_nil, elems_length]
      split_ifs <;> first | omega | rfl | (congr 1; omega)
    · simp only [grown, if_neg hc, ← hN]
      split_ifs <;> omega

theorem PushBack_rvalue_eq [Inhabited T] (v : SimpleVector T) (x : T) :
    v.PushBack_rvalue x = v.PushBack x := rfl

theorem Insert_rvalue_eq [Inhabited T] (v : SimpleVector T) (pos : Nat) (x : ValueRef T) :
    v.Insert_rvalue pos x = v.Insert pos x := rfl

theorem read_eq_ok_iff (p : ArrayPtr T) (j : Nat) (x : T) :
    p.read j = .ok x ↔ p.raw_ptr_[j]? = some x := by
  unfold ArrayPtr.read
  cases p.raw_ptr_[j]? <;> simp

/-- Specification of `Insert` for a reference `value` that denotes `x` when the
call starts. The inserted element `y` is `x` unless there is room and `value`
refers to a cell in `(i, size]`, which `copy_backward` overwrites before the
reference is read; then `y` is the former content of the cell before it. -/
theorem Insert_spec [Inhabited T] (v : SimpleVector T) (i : Nat) (value : ValueRef T) (x : T)
    (h : v.Inv) (hi : i ≤ v.size_) (hx : value.get v.items_ = .ok x) :
    ∃ w y, v.Insert i value = .ok (w, i) ∧ w.Inv ∧
      w.elems = v.elems.take i ++ y :: v.elems.drop i ∧
      w.size_ = v.size_ + 1 ∧ w.capacity_ = grown v.size_ v.capacity_ ∧
      ((∀ j, value = .cell j → v.size_ < v.capacity_ → i < j → v.size_ < j) → y = x) ∧
      (∀ j, value = .cell j → v.size_ < v.capacity_ → i < j → j ≤ v.size_ →
        v.items_.raw_ptr_[j - 1]? = some y) := by
  obtain ⟨h1, h2⟩ := h
  unfold ArrayPtr.extent at h2
  by_cases hc : v.size_ < v.capacity_
  · obtain ⟨t, ht, htl, htg⟩ := copy_backward_spec v.items_ i v.size_ (v.size_ + 1) hi
      (by omega) (by omega)
    have hget : ∃ y, value.get t = .ok y ∧
        ((∀ j, value = .cell j → v.size_ < v.capacity_ → i < j → v.size_ < j) → y = x) ∧
        (∀ j, value = .cell j → v.size_ < v.capacity_ → i < j → j ≤ v.size_ →
          v.items_.raw_ptr_[j - 1]? = some y) := by
      cases value with
      | external x0 =>
        refine ⟨x0, rfl, fun _ => ?_, fun j hj => by cases hj⟩
        simp only [ValueRef.get] at hx
        cases hx
        rfl
      | cell k =>
        simp only [ValueRef.get, read_eq_ok_iff] at hx ⊢
        have hk : k < v.items_.raw_ptr_.length := by
          by_contra hk
          rw [List.getElem?_eq_none (by omega)] at hx
          cases hx
        obtain ⟨y, hy⟩ : ∃ y, t.raw_ptr_[k]? = some y :=
          ⟨_, List.getElem?_eq_getElem (by omega)⟩
        refine ⟨y, hy, fun hno => ?_, fun j hj _ hij hjs => ?_⟩
        · have hk2 : ¬ (i < k ∧ k ≤ v.size_) := by
            rintro ⟨ha, hb⟩
            have := hno k rfl hc ha
            omega
          rw [htg, if_neg (by omega), hx] at hy
          cases hy
          rfl
        · cases hj
          rw [htg, if_pos (by omega)] at hy
          rw [← hy]
          congr 1
          omega
    obtain ⟨y, hy, hyx, hyshift⟩ := hget
    obtain ⟨r, hr, hl, hg⟩ := write_spec t i y (by omega)
    refine ⟨⟨r, v.size_ + 1, v.capacity_⟩, y, ?_, ?_, ?_, rfl, ?_, hyx, hyshift⟩
    · simp only [Insert, if_pos hc, not_le, if_neg (show ¬ v.size_ < i by omega), ht, hy, hr]
    · constructor <;> simp [ArrayPtr.extent] <;> omega
    · apply List.ext_getElem?
      intro j
      simp only [elems_getElem?, hg, htg, List.getElem?_append, List.length_take,
        List.getElem?_cons, List.getElem?_take, List.getElem?_drop, elems_length, List.length_take]
      split_ifs <;> first | omega | rfl | (congr 1; omega)
    · simp [grown, hc]
  · have hnc : v.size_ < (if v.capacity_ = 0 then 1 else v.capacity_ * 2) := by
      split_ifs <;> omega
    generalize hN : (if v.capacity_ = 0 then 1 else v.capacity_ * 2) = N at hnc
    obtain ⟨t1, ht1, htl1, htg1⟩ := copy_spec v.items_ 0 i (ArrayPtr.ofSize N) 0
      (by omega) (by omega) (by rw [ofSize_length]; omega)
    rw [ofSize_length] at htl1
    obtain ⟨t2, ht2, htl2, htg2⟩ := write_spec t1 i x (by omega)
    obtain ⟨t3, ht3, htl3, htg3⟩ := copy_spec v.items_ i v.size_ t2 (i + 1) hi (by omega)
      (by omega)
    refine ⟨⟨t3, v.size_ + 1, N⟩, x, ?_, ?_, ?_, rfl, ?_, fun _ => rfl,
      fun j _ hlt => absurd hlt hc⟩
    · simp only [Insert, if_neg hc, not_le, if_neg (show ¬ v.size_ < i by omega), hN, ht1, hx,
        ht2, ht3]
    · constructor <;> simp [ArrayPtr.extent] <;> omega
    · apply List.ext_getElem?
      intro j
      simp only [elems_getElem?, htg3, htg2, htg1, ofSize_getElem?, List.getElem?_append,
        List.getElem?_cons, List.getElem?_take, List.getElem?_drop, elems_length, List.length_take]
      split_ifs <;> first | omega | rfl | (congr 1; omega)
    · simp only [grown, if_neg hc, ← hN]
      split_ifs <;> omega

theorem Erase_spec (v : SimpleVector T) (i : Nat) (h : v.Inv) (hi : i < v.size_) :
    ∃ w, v.Erase i = .ok (w, i) ∧ w.Inv ∧
      w.elems = v.elems.take i ++ v.elems.drop (i + 1) ∧
      w.size_ = v.size_ - 1 ∧ w.capacity_ = v.capacity_ := by
  obtain ⟨h1, h2⟩ := h
  unfold ArrayPtr.extent at h2
  obtain ⟨r, hr, hl, hg⟩ := move_within_spec v.items_ (i + 1) v.size_ i (by omega) (by omega)
    (by omega)
  refine ⟨⟨r, v.size_ - 1, v.capacity_⟩, ?_, ?_, ?_, rfl, rfl⟩
  · simp only [Erase, not_le, if_neg (show ¬ v.size_ < i by omega), ne_eq, not_not,
      if_neg (show ¬ v.size_ = 0 by omega), hr]
  · constructor <;> simp [ArrayPtr.extent] <;> omega
  · apply List.ext_getElem?
    intro j
    simp only [elems_getElem?, hg, List.getElem?_append, List.getElem?_take,
      List.getElem?_drop, elems_length, List.length_take]
    split_ifs <;> first | omega | rfl | (congr 1; omega)

theorem Reserve_spec [Inhabited T] (v : SimpleVector T) (n : Nat) (h : v.Inv)
    (hn : v.capacity_ < n) :
    ∃ w, v.Reserve n = .ok w ∧ w.Inv ∧ w.elems = v.elems ∧ w.size_ = v.size_ ∧
      w.capacity_ = n := by
  obtain ⟨h1, h2⟩ := h
  unfold ArrayPtr.extent at h2
  obtain ⟨t, ht, htl, htg⟩ := copy_spec v.items_ 0 v.size_ (ArrayPtr.ofSize n) 0
    (by omega) (by omega) (by rw [ofSize_length]; omega)
  rw [ofSize_length] at htl
  refine ⟨⟨t, v.size_, n⟩, ?_, ?_, ?_, rfl, rfl⟩
  · simp only [Reserve, gt_iff_lt, if_pos hn, ht]
  · constructor <;> simp [ArrayPtr.extent] <;> omega
  · apply List.ext_getElem?
    intro j
    simp only [elems_getElem?, htg, ofSize_getElem?]
    split_ifs <;> first | omega | rfl | (congr 1; omega)

theorem ofSizeValue_spec [Inhabited T] (n : Nat) (x : T) :
    ∃ w : SimpleVector T, ofSizeValue n x = .ok w ∧ w.Inv ∧ w.elems = List.replicate n x ∧
      w.size_ = n ∧ w.capacity_ = n ∧ w.items_.raw_ptr_ = List.replicate n x := by
  obtain ⟨t, ht, htl, htg⟩ := generate_spec (ArrayPtr.ofSize n : ArrayPtr T) 0 n x
    (by omega) (by rw [ofSize_length])
  rw [ofSize_length] at htl
  have hraw : t.raw_ptr_ = List.replicate n x := by
    apply List.ext_getElem?
    intro j
    simp only [htg, ofSize_getElem?, List.getElem?_replicate]
    split_ifs <;> first | omega | rfl
  refine ⟨⟨t, n, n⟩, ?_, ?_, ?_, rfl, rfl, hraw⟩
  · simp only [ofSizeValue, ht]
  · exact ⟨le_refl _, by simp [ArrayPtr.extent, htl]⟩
  · simp [elems, hraw]

theorem ofSize_spec [Inhabited T] (n : Nat) :
    ∃ w : SimpleVector T, ofSize n = .ok w ∧ w.Inv ∧ w.elems = List.replicate n default ∧
      w.size_ = n ∧ w.capacity_ = n ∧ w.items_.raw_ptr_ = List.replicate n default :=
  ofSizeValue_spec n default

theorem ofList_spec [Inhabited T] (init : List T) :
    ∃ w : SimpleVector T, ofList init = .ok w ∧ w.Inv ∧ w.elems = init ∧
      w.size_ = init.length ∧ w.capacity_ = init.length := by
  obtain ⟨t, ht, htl, htg⟩ := copy_spec (⟨init⟩ : ArrayPtr T) 0 init.length
    (ArrayPtr.ofSize init.length) 0 (by omega) (by simp) (by rw [ofSize_length]; omega)
  rw [ofSize_length] at htl
  refine ⟨⟨t, init.length, init.length⟩, ?_, ?_, ?_, rfl, rfl⟩
  · simp only [ofList, ht]
  · exact ⟨le_refl _, by simp [ArrayPtr.extent, htl]⟩
  · apply List.ext_getElem?
    intro j
    simp only [elems_getElem?, htg, ofSize_getElem?]
    split_ifs <;> first | omega | rfl | (congr 1; omega) |
      (rw [List.getElem?_eq_none (by omega)])

theorem Resize_spec [Inhabited T] (v : SimpleVector T) (n : Nat) (h : v.Inv) :
    ∃ w, v.Resize n = .ok w ∧ w.Inv ∧
      w.elems = v.elems.take n ++ List.replicate (n - v.size_) default ∧
      w.size_ = n ∧
      w.capacity_ = (if n ≤ v.capacity_ then v.capacity_ else max n (2 * v.capacity_)) := by
  obtain ⟨h1, h2⟩ := h
  unfold ArrayPtr.extent at h2
  by_cases c1 : n ≤ v.size_
  · refine ⟨⟨v.items_, n, v.capacity_⟩, ?_, ?_, ?_, rfl, ?_⟩
    · simp only [Resize, if_pos c1, gt_iff_lt, lt_irrefl, false_and, if_false,
        if_neg (show ¬ v.capacity_ < n by omega)]
    · constructor <;> simp [ArrayPtr.extent] <;> omega
    · apply List.ext_getElem?
      intro j
      simp only [elems_getElem?, List.getElem?_append, List.getElem?_take,
        List.getElem?_replicate, elems_length, List.length_take]
      split_ifs <;> first | omega | rfl
    · rw [if_pos (by omega)]
  · by_cases c2 : n ≤ v.capacity_
    · obtain ⟨r, hr, hl, hg⟩ := assign_n_spec (n - v.size_) v.items_ v.size_ default
        (by omega)
      refine ⟨⟨r, n, v.capacity_⟩, ?_, ?_, ?_, rfl, ?_⟩
      · simp only [Resize, if_neg c1, gt_iff_lt, show v.size_ < n by omega, c2, and_self,
          if_true, hr, if_neg (show ¬ v.capacity_ < n by omega)]
      · constructor <;> simp [ArrayPtr.extent] <;> omega
      · apply List.ext_getElem?
        intro j
        simp only [elems_getElem?, hg, List.getElem?_append, List.getElem?_take,
          List.getElem?_replicate, elems_length, List.length_take]
        split_ifs <;> first | omega | rfl
      · rw [if_pos c2]
    · generalize hM : max n (v.capacity_ * 2) = M
      have hM1 : n ≤ M := by omega
      obtain ⟨nv, hnv, -, -, -, hcap, hraw⟩ := @ofSize_spec T _ M
      obtain ⟨r, hr, hl, hg⟩ := copy_n_spec v.size_ v.items_ 0 nv.items_ 0 (by omega)
        (by rw [hraw]; simp; omega)
      rw [hraw] at hl hg
      simp only [List.length_replicate] at hl
      refine ⟨⟨r, n, M⟩, ?_, ?_, ?_, rfl, ?_⟩
      · simp only [Resize, if_neg c1, gt_iff_lt, c2, and_false, if_false,
          if_pos (show v.capacity_ < n by omega), hM, hnv, hr, hcap]
      · constructor <;> simp [ArrayPtr.extent] <;> omega
      · apply List.ext_getElem?
        intro j
        simp only [elems_getElem?, hg, List.getElem?_append, List.getElem?_take,
          List.getElem?_replicate, elems_length, List.length_take]
        split_ifs <;> first | omega | rfl | (congr 1; omega)
      · rw [if_neg c2, ← hM]
        show max n (v.capacity_ * 2) = max n (2 * v.capacity_)
        rw [Nat.mul_comm]

theorem PushBack_all_spec [Inhabited T] (values : List T) (v : SimpleVector T) (h : v.Inv) :
    ∃ w, PushBack_all v values = .ok w ∧ w.Inv ∧ w.elems = v.elems ++ values ∧
      w.size_ = v.size_ + values.length := by
  induction values generalizing v with
  | nil => exact ⟨v, rfl, h, by simp, by simp⟩
  | cons x xs ih =>
    obtain ⟨v1, h1, hinv, hel, hsz, -⟩ := PushBack_spec v x h
    obtain ⟨w, hw, hwinv, hwel, hwsz⟩ := ih v1 hinv
    refine ⟨w, by simp only [PushBack_all, h1, hw], hwinv, ?_, ?_⟩
    · rw [hwel, hel]; simp
    · rw [hwsz, hsz]; simp; omega

theorem empty_Inv : (empty : SimpleVector T).Inv := by
  constructor <;> simp [empty, ArrayPtr.null, ArrayPtr.extent]

theorem operator_eq_spec [BEq T] (lhs rhs : SimpleVector T)
    (hl : lhs.size_ ≤ lhs.items_.extent) (hr : rhs.size_ ≤ rhs.items_.extent) :
    ∃ b, operator_eq lhs rhs = .ok b ∧
      (b = true ↔ lhs.size_ = rhs.size_ ∧ ∀ j, j < lhs.size_ →
        ∃ x y, lhs.elems[j]? = some x ∧ rhs.elems[j]? = some y ∧ (x == y) = true) := by
  unfold ArrayPtr.extent at hl hr
  by_cases hs : lhs.size_ = rhs.size_
  · obtain ⟨b, hb, hiff⟩ := equal_n_spec lhs.size_ lhs.items_ 0 rhs.items_ 0 (by omega)
      (by omega)
    refine ⟨b, ?_, ?_⟩
    · simp only [operator_eq, GetSize, ne_eq, hs, not_true_eq_false, if_false, equal,
        Nat.not_lt_zero, Nat.sub_zero]
      rw [← hs]; exact hb
    · rw [hiff]
      constructor
      · intro hall
        refine ⟨hs, fun j hj => ?_⟩
        obtain ⟨x, y, h1, h2, h3⟩ := hall j hj
        refine ⟨x, y, ?_, ?_, h3⟩
        · rw [elems_getElem?, if_pos hj, ← h1]; congr 1; omega
        · rw [elems_getElem?, if_pos (by omega), ← h2]; congr 1; omega
      · rintro ⟨-, hall⟩ j hj
        obtain ⟨x, y, h1, h2, h3⟩ := hall j hj
        refine ⟨x, y, ?_, ?_, h3⟩
        · rw [elems_getElem?, if_pos hj] at h1; rw [← h1]; congr 1; omega
        · rw [elems_getElem?, if_pos (by omega)] at h2; rw [← h2]; congr 1; omega
  · refine ⟨false, by simp [operator_eq, GetSize, hs], ?_⟩
    constructor
    · intro hf; cases hf
    · rintro ⟨h1, -⟩; exact absurd h1 hs

/-! ### Counters of the results, without any assumption on the storage -/

theorem PushBack_counters [Inhabited T] (v w : SimpleVector T) (x : T)
    (h : v.PushBack x = .ok w) :
    w.size_ = v.size_ + 1 ∧ w.capacity_ = grown v.size_ v.capacity_ := by
  unfold PushBack at h
  unfold grown
  dsimp only at h
  split_ifs at h with hc h0 <;> repeat' split at h
  all_goals cases h
  all_goals refine ⟨rfl, ?_⟩
  all_goals split_ifs
  all_goals first | rfl | omega | (simp only; omega)

theorem Insert_counters [Inhabited T] (v w : SimpleVector T) (pos i : Nat) (x : ValueRef T)
    (h : v.Insert pos x = .ok (w, i)) :
    w.size_ = v.size_ + 1 ∧ w.capacity_ = grown v.size_ v.capacity_ := by
  unfold Insert at h
  unfold grown
  dsimp only at h
  split_ifs at h with hp hc h0 <;> repeat' split at h
  all_goals cases h
  all_goals refine ⟨rfl, ?_⟩
  all_goals split_ifs
  all_goals first | rfl | omega | (simp only; omega)

theorem Erase_counters (v w : SimpleVector T) (pos i : Nat) (h : v.Erase pos = .ok (w, i)) :
    w.size_ = v.size_ - 1 ∧ w.capacity_ = v.capacity_ := by
  unfold Erase at h
  dsimp only at h
  split_ifs at h
  split at h
  · cases h
  · cases h
    exact ⟨rfl, rfl⟩

theorem PopBack_counters (v w : SimpleVector T) (h : v.PopBack = .ok w) :
    w.size_ = v.size_ - 1 ∧ w.capacity_ = v.capacity_ ∧ w.items_ = v.items_ ∧ v.size_ ≠ 0 := by
  unfold PopBack at h
  split_ifs at h with h0
  cases h
  exact ⟨rfl, rfl, rfl, h0⟩

theorem Reserve_counters [Inhabited T] (v w : SimpleVector T) (n : Nat)
    (h : v.Reserve n = .ok w) :
    w.size_ = v.size_ ∧ v.capacity_ ≤ w.capacity_ := by
  unfold Reserve at h
  split_ifs at h with hc
  · split at h
    · cases h
    · cases h
      exact ⟨rfl, by simp only; omega⟩
  · cases h
    exact ⟨rfl, le_refl _⟩

theorem ofCopy_counters [Inhabited T] (s w : SimpleVector T) (h : ofCopy s = .ok w) :
    w.size_ = s.size_ ∧ w.capacity_ = s.capacity_ := by
  unfold ofCopy at h
  split at h
  · cases h
  · cases h
    exact ⟨rfl, rfl⟩

theorem ofSizeValue_counters [Inhabited T] (n : Nat) (x : T) (w : SimpleVector T)
    (h : ofSizeValue n x = .ok w) : w.size_ = n ∧ w.capacity_ = n := by
  unfold ofSizeValue at h
  split at h
  · cases h
  · cases h
    exact ⟨rfl, rfl⟩

theorem ofSize_counters [Inhabited T] (n : Nat) (w : SimpleVector T)
    (h : ofSize n = .ok w) : w.size_ = n ∧ w.capacity_ = n :=
  ofSizeValue_counters n default w h

theorem ofList_counters [Inhabited T] (init : List T) (w : SimpleVector T)
    (h : ofList init = .ok w) : w.size_ = init.length ∧ w.capacity_ = init.length := by
  unfold ofList at h
  split at h
  · cases h
  · cases h
    exact ⟨rfl, rfl⟩

theorem Resize_counters [Inhabited T] (v w : SimpleVector T) (n : Nat)
    (hv : v.size_ ≤ v.capacity_) (h : v.Resize n = .ok w) :
    w.size_ = n ∧ n ≤ w.capacity_ := by
  by_cases c1 : n ≤ v.size_
  · simp only [Resize, if_pos c1, gt_iff_lt, lt_irrefl, false_and, if_false,
      if_neg (show ¬ v.capacity_ < n by omega)] at h
    cases h
    exact ⟨rfl, by simp only; omega⟩
  · by_cases c2 : n ≤ v.capacity_
    · simp only [Resize, if_neg c1, gt_iff_lt, show v.size_ < n by omega, c2, and_self,
        if_true] at h
      split at h
      · cases h
      · rename_i v2 hv2
        split at hv2
        · cases hv2
        · cases hv2
          simp only [if_neg (show ¬ v.capacity_ < n by omega)] at h
          cases h
          exact ⟨rfl, c2⟩
    · simp only [Resize, if_neg c1, gt_iff_lt, c2, and_false, if_false,
        if_pos (show v.capacity_ < n by omega)] at h
      split at h
      · cases h
      · rename_i nv hnv
        obtain ⟨-, hcap⟩ := ofSize_counters _ _ hnv
        split at h
        · cases h
        · cases h
          exact ⟨rfl, by simp only [hcap]; exact le_max_left _ _⟩

theorem operator_assign_cases [BEq T] [Inhabited T] (v rhs w r : SimpleVector T)
    (h : operator_assign v rhs = .ok (w, r)) :
    r = rhs ∧ ((operator_ne v rhs = .ok false ∧ w = v) ∨
      (operator_ne v rhs = .ok true ∧ ofCopy rhs = .ok w)) := by
  unfold operator_assign at h
  split at h
  · cases h
  · rename_i hne
    split at h
    · cases h
    · rename_i temp htemp
      cases h
      exact ⟨rfl, Or.inr ⟨hne, htemp⟩⟩
  · rename_i hne
    cases h
    exact ⟨rfl, Or.inl ⟨hne, rfl⟩⟩

theorem operator_assign_rvalue_cases [BEq T] [Inhabited T] (v rhs w r t : SimpleVector T)
    (h : operator_assign_rvalue v rhs = .ok (w, r, t)) :
    (operator_ne v rhs = .ok false ∧ w = v ∧ r = rhs ∧ ofCopy v = .ok t) ∨
    (operator_ne v rhs = .ok true ∧ w = (ofMove rhs).1 ∧ r = (ofMove rhs).2 ∧
      ofCopy (ofMove rhs).1 = .ok t) := by
  unfold operator_assign_rvalue at h
  split at h
  · cases h
  · rename_i hne
    split at h
    · cases h
    · rename_i res hres
      cases h
      exact Or.inr ⟨hne, rfl, rfl, hres⟩
  · rename_i hne
    split at h
    · cases h
    · rename_i res hres
      cases h
      exact Or.inl ⟨hne, rfl, rfl, hres⟩

theorem Reachable_size_le_capacity [BEq T] [Inhabited T] (v : SimpleVector T)
    (h : Reachable v) : v.size_ ≤ v.capacity_ := by
  induction h with
  | empty => exact le_refl _
  | ofSize n v h => obtain ⟨h1, h2⟩ := ofSize_counters n v h; omega
  | ofSizeValue n x v h => obtain ⟨h1, h2⟩ := ofSizeValue_counters n x v h; omega
  | ofList init v h => obtain ⟨h1, h2⟩ := ofList_counters init v h; omega
  | ofCopy s v _ h ih => obtain ⟨h1, h2⟩ := ofCopy_counters s v h; omega
  | ofMove_target s _ ih => exact ih
  | ofMove_source s _ _ => exact le_refl _
  | ofReserve n => exact Nat.zero_le _
  | PushBack v w x _ h ih =>
    obtain ⟨h1, h2⟩ := PushBack_counters v w x h
    rw [h1, h2]; unfold grown; split_ifs <;> omega
  | PushBack_rvalue v w x _ h ih =>
    obtain ⟨h1, h2⟩ := PushBack_counters v w x ((PushBack_rvalue_eq v x).symm.trans h)
    rw [h1, h2]; unfold grown; split_ifs <;> omega
  | Insert v w pos i x _ h ih =>
    obtain ⟨h1, h2⟩ := Insert_counters v w pos i x h
    rw [h1, h2]; unfold grown; split_ifs <;> omega
  | Insert_rvalue v w pos i x _ h ih =>
    obtain ⟨h1, h2⟩ := Insert_counters v w pos i x ((Insert_rvalue_eq v pos x).symm.trans h)
    rw [h1, h2]; unfold grown; split_ifs <;> omega
  | Erase v w pos i _ h ih => obtain ⟨h1, h2⟩ := Erase_counters v w pos i h; omega
  | PopBack v w _ h ih => obtain ⟨h1, h2, -, -⟩ := PopBack_counters v w h; omega
  | Resize v w n _ h ih => obtain ⟨h1, h2⟩ := Resize_counters v w n ih h; omega
  | Reserve v w n _ h ih => obtain ⟨h1, h2⟩ := Reserve_counters v w n h; omega
  | Clear v _ _ => exact Nat.zero_le _
  | swap_this v other _ _ _ ih2 => exact ih2
  | swap_other v other _ _ ih1 _ => exact ih1
  | swap_rvalue_this v other _ _ _ ih2 => exact ih2
  | swap_rvalue_other v other _ _ ih1 _ => exact ih1
  | operator_assign v rhs w r _ _ h ih1 ih2 =>
    obtain ⟨-, ⟨-, hw⟩ | ⟨-, hw⟩⟩ := operator_assign_cases v rhs w r h
    · rw [hw]; exact ih1
    · obtain ⟨h1, h2⟩ := ofCopy_counters rhs w hw; omega
  | operator_assign_rvalue_this v rhs w r t _ _ h ih1 ih2 =>
    obtain ⟨-, hw, -, -⟩ | ⟨-, hw, -, -⟩ := operator_assign_rvalue_cases v rhs w r t h
    · rw [hw]; exact ih1
    · rw [hw]; exact ih2
  | operator_assign_rvalue_source v rhs w r t _ _ h ih1 ih2 =>
    obtain ⟨-, -, hr, -⟩ | ⟨-, -, hr, -⟩ := operator_assign_rvalue_cases v rhs w r t h
    · rw [hr]; exact ih2
    · rw [hr]; exact le_refl _
  | operator_assign_rvalue_result v rhs w r t _ _ h ih1 ih2 =>
    obtain ⟨-, -, -, ht⟩ | ⟨-, -, -, ht⟩ := operator_assign_rvalue_cases v rhs w r t h
    · obtain ⟨h1, h2⟩ := ofCopy_counters v t ht; omega
    · obtain ⟨h1, h2⟩ := ofCopy_counters _ t ht
      have : (ofMove rhs).1.size_ ≤ (ofMove rhs).1.capacity_ := ih2
      omega

/-! ### Copy construction, assignment and ordering -/

theorem ofCopy_spec [Inhabited T] (s : SimpleVector T) (h : s.size_ ≤ s.items_.extent) :
    ∃ w, ofCopy s = .ok w ∧ w.items_.raw_ptr_ = s.elems ∧ w.elems = s.elems ∧
      w.size_ = s.size_ ∧ w.capacity_ = s.capacity_ := by
  unfold ArrayPtr.extent at h
  obtain ⟨t, ht, htl, htg⟩ := copy_spec s.items_ 0 s.size_ (ArrayPtr.ofSize s.size_) 0
    (by omega) (by omega) (by rw [ofSize_length]; omega)
  rw [ofSize_length] at htl
  have hraw : t.raw_ptr_ = s.elems := by
    apply List.ext_getElem?
    intro j
    simp only [elems_getElem?, htg, ofSize_getElem?]
    split_ifs <;> first | omega | rfl | (congr 1; omega)
  refine ⟨⟨t, s.size_, s.capacity_⟩, ?_, hraw, ?_, rfl, rfl⟩
  · simp only [ofCopy, ht]
  · simp only [elems, hraw, List.take_take, min_self]

theorem operator_ne_spec [BEq T] (lhs rhs : SimpleVector T)
    (hl : lhs.size_ ≤ lhs.items_.extent) (hr : rhs.size_ ≤ rhs.items_.extent) :
    ∃ b, operator_eq lhs rhs = .ok b ∧ operator_ne lhs rhs = .ok (!b) ∧
      (b = true ↔ lhs.size_ = rhs.size_ ∧ ∀ j, j < lhs.size_ →
        ∃ x y, lhs.elems[j]? = some x ∧ rhs.elems[j]? = some y ∧ (x == y) = true) := by
  obtain ⟨b, hb, hiff⟩ := operator_eq_spec lhs rhs hl hr
  exact ⟨b, hb, by simp only [operator_ne, hb], hiff⟩

theorem operator_eq_of_elems_eq [BEq T] (lhs rhs : SimpleVector T)
    (hl : lhs.size_ ≤ lhs.items_.extent) (hr : rhs.size_ ≤ rhs.items_.extent)
    (hs : lhs.size_ = rhs.size_) (he : lhs.elems = rhs.elems)
    (hrefl : ∀ x : T, (x == x) = true) : operator_eq lhs rhs = .ok true := by
  obtain ⟨b, hb, hiff⟩ := operator_eq_spec lhs rhs hl hr
  have hbt : b = true := by
    rw [hiff]
    refine ⟨hs, fun j hj => ?_⟩
    unfold ArrayPtr.extent at hl
    obtain ⟨x, hx⟩ : ∃ x, lhs.elems[j]? = some x := by
      rw [elems_getElem?, if_pos hj]
      exact ⟨_, List.getElem?_eq_getElem (by omega)⟩
    exact ⟨x, x, hx, by rw [← he]; exact hx, hrefl x⟩
  rw [hb, hbt]

theorem elems_eq_of_operator_eq [BEq T] (lhs rhs : SimpleVector T)
    (hl : lhs.size_ ≤ lhs.items_.extent) (hr : rhs.size_ ≤ rhs.items_.extent)
    (h : operator_eq lhs rhs = .ok true) :
    lhs.size_ = rhs.size_ ∧ ((∀ x y : T, (x == y) = true → x = y) → lhs.elems = rhs.elems) := by
  obtain ⟨b, hb, hiff⟩ := operator_eq_spec lhs rhs hl hr
  rw [hb] at h
  cases h
  obtain ⟨hs, hall⟩ := hiff.1 rfl
  refine ⟨hs, fun hlaw => ?_⟩
  apply List.ext_getElem?
  intro j
  by_cases hj : j < lhs.size_
  · obtain ⟨x, y, hx, hy, hxy⟩ := hall j hj
    rw [hx, hy, hlaw x y hxy]
  · rw [elems_getElem?, elems_getElem?, if_neg hj, if_neg (by omega)]

theorem operator_assign_spec [BEq T] [Inhabited T] (a b : SimpleVector T)
    (ha : a.size_ ≤ a.items_.extent) (hb : b.size_ ≤ b.items_.extent) :
    ∃ w, operator_assign a b = .ok (w, b) ∧ w.size_ ≤ w.items_.extent ∧ w.size_ = b.size_ ∧
      ((operator_eq a b = .ok true ∧ w = a) ∨
        (w.elems = b.elems ∧ w.capacity_ = b.capacity_ ∧ w.items_.raw_ptr_ = b.elems)) := by
  obtain ⟨r, hr, hne, hiff⟩ := operator_ne_spec a b ha hb
  cases r with
  | true =>
    refine ⟨a, ?_, ha, (hiff.1 rfl).1, Or.inl ⟨hr, rfl⟩⟩
    simp only [operator_assign, hne, Bool.not_true]
  | false =>
    obtain ⟨w, hw, hraw, hel, hsz, hcap⟩ := ofCopy_spec b hb
    refine ⟨w, ?_, ?_, hsz, Or.inr ⟨hel, hcap, hraw⟩⟩
    · simp only [operator_assign, hne, Bool.not_false, hw, swap]
    · unfold ArrayPtr.extent at *
      rw [hraw, elems_length, hsz]
      omega

theorem operator_lt_spec [LT T] [∀ x y : T, Decidable (x < y)] (lhs rhs : SimpleVector T)
    (hl : lhs.size_ ≤ lhs.items_.extent) (hr : rhs.size_ ≤ rhs.items_.extent) :
    ∃ r, operator_lt lhs rhs = .ok r ∧ (r = true ↔ List.lt lhs.elems rhs.elems) := by
  unfold ArrayPtr.extent at hl hr
  obtain ⟨r, h1, h2⟩ := lexicographical_compare_n_spec lhs.size_ lhs.items_ 0 rhs.items_ 0
    rhs.size_ (by omega) (by omega) hr
  refine ⟨r, ?_, ?_⟩
  · simp only [operator_lt, lexicographical_compare, Nat.not_lt_zero, or_self, if_false,
      Nat.sub_zero]
    exact h1
  · rw [h2]
    simp only [List.drop_zero, Nat.sub_zero, elems]

theorem list_lt_append_cons [LT T] (l : List T) (y : T) (t : List T) :
    List.lt l (l ++ y :: t) := by
  induction l with
  | nil => exact List.lt.nil _ _
  | cons x xs ih =>
    by_cases hx : x < x
    · exact List.lt.head _ _ hx
    · exact List.lt.tail hx hx ih

theorem operator_assign_rvalue_of_ne [BEq T] [Inhabited T] (v rhs : SimpleVector T)
    (hne : operator_ne v rhs = .ok true) (hr : rhs.size_ ≤ rhs.items_.extent) :
    ∃ t, operator_assign_rvalue v rhs = .ok (rhs, empty, t) ∧ t.elems = rhs.elems := by
  obtain ⟨t, ht, -, hel, -, -⟩ := ofCopy_spec rhs hr
  refine ⟨t, ?_, hel⟩
  have e : (swap v (ofMove rhs).1).1 = rhs := rfl
  simp only [operator_assign_rvalue, hne, e, ht]
  rfl

/-! ### Capacity growth under repeated `PushBack` -/

theorem clog_succ_of_lt (s : Nat) (h : s < 2 ^ Nat.clog 2 s) :
    Nat.clog 2 (s + 1) = Nat.clog 2 s := by
  apply le_antisymm
  · exact (Nat.le_pow_iff_clog_le (by decide)).1 h
  · exact Nat.clog_mono_right 2 (Nat.le_succ s)

theorem clog_succ_of_eq (s : Nat) (hs : 1 ≤ s) (h : s = 2 ^ Nat.clog 2 s) :
    Nat.clog 2 (s + 1) = Nat.clog 2 s + 1 := by
  apply le_antisymm
  · apply (Nat.le_pow_iff_clog_le (by decide)).1
    rw [Nat.pow_succ, ← h]
    omega
  · by_contra hc
    have h1 : Nat.clog 2 (s + 1) ≤ Nat.clog 2 s := by omega
    have h2 := (Nat.le_pow_iff_clog_le (by decide : 1 < 2)).2 h1
    omega

theorem PushBack_count_spec [Inhabited T] (values : List T) (v : SimpleVector T) (h : v.Inv)
    (hs : 1 ≤ v.size_) (hc : v.capacity_ = 2 ^ Nat.clog 2 v.size_) :
    ∃ w k, PushBack_count v values = .ok (w, k) ∧ PushBack_all v values = .ok w ∧
      w.size_ = v.size_ + values.length ∧ w.capacity_ = 2 ^ Nat.clog 2 w.size_ ∧
      k + Nat.clog 2 v.size_ = Nat.clog 2 w.size_ := by
  induction values generalizing v with
  | nil => exact ⟨v, 0, rfl, rfl, rfl, hc, by omega⟩
  | cons x xs ih =>
    obtain ⟨v1, h1, hinv, -, hsz, hcap⟩ := PushBack_spec v x h
    have hle := h.1
    by_cases hlt : v.size_ < v.capacity_
    · have e := clog_succ_of_lt v.size_ (by rw [← hc]; exact hlt)
      have hc1 : v1.capacity_ = 2 ^ Nat.clog 2 v1.size_ := by
        rw [hcap, hsz, e, ← hc]
        simp [grown, hlt]
      obtain ⟨w, k, hw1, hw2, hw3, hw4, hw5⟩ := ih v1 hinv (by omega) hc1
      refine ⟨w, k, ?_, ?_, ?_, hw4, ?_⟩
      · simp only [PushBack_count, h1, hw1, if_pos hlt]
      · simp only [PushBack_all, h1, hw2]
      · rw [hw3, hsz, List.length_cons]; omega
      · rw [← hw5, hsz, e]
    · have heq : v.size_ = 2 ^ Nat.clog 2 v.size_ := by omega
      have e := clog_succ_of_eq v.size_ hs heq
      have hpos : 0 < 2 ^ Nat.clog 2 v.size_ := Nat.pow_pos (by decide)
      have hc1 : v1.capacity_ = 2 ^ Nat.clog 2 v1.size_ := by
        rw [hcap, hsz, e, Nat.pow_succ, ← hc]
        unfold grown
        rw [if_neg hlt, if_neg (by omega)]
        omega
      obtain ⟨w, k, hw1, hw2, hw3, hw4, hw5⟩ := ih v1 hinv (by omega) hc1
      refine ⟨w, k + 1, ?_, ?_, ?_, hw4, ?_⟩
      · simp only [PushBack_count, h1, hw1, if_neg hlt]
      · simp only [PushBack_all, h1, hw2]
      · rw [hw3, hsz, List.length_cons]; omega
      · rw [← hw5, hsz, e]; omega

end SimpleVector

/-! ## The claims -/

section Claims

open SimpleVector

variable {T : Type}

/-- C2, evaluated where it fails: `v = [1, 2, 3]` with capacity 6 and the call
`v.Insert(v.cbegin(), v[2])`, whose `value` refers to the cell at offset 2 and
denotes 3 when the call starts. There is room, so `copy_backward` shifts the
cells to `[1, 1, 2, 3]` first and `items_[dist] = value` then reads the shifted
cell: both overloads return `[2, 1, 2, 3]`, not `[3, 1, 2, 3]`. The sibling
paths store the value the reference denoted when the call started: the same
call on the full vector `[1, 2, 3]` (capacity 3), which reallocates, returns
`[3, 1, 2, 3]` with capacity 6, and so does the call with a value outside the
buffer. Inserting the outside value 0 at position 0 of `[1, 2, 3]` returns
`[0, 1, 2, 3]`. -/
theorem C2_Insert_aliased_value :
    (⟨⟨[1, 2, 3, 0, 0, 0]⟩, 3, 6⟩ : SimpleVector Nat).Inv ∧
    (ValueRef.cell 2).get (⟨⟨[1, 2, 3, 0, 0, 0]⟩, 3, 6⟩ : SimpleVector Nat).items_ = .ok 3 ∧
    (⟨⟨[1, 2, 3, 0, 0, 0]⟩, 3, 6⟩ : SimpleVector Nat).Insert 0 (.cell 2) =
      .ok (⟨⟨[2, 1, 2, 3, 0, 0]⟩, 4, 6⟩, 0) ∧
    (⟨⟨[1, 2, 3, 0, 0, 0]⟩, 3, 6⟩ : SimpleVector Nat).Insert_rvalue 0 (.cell 2) =
      .ok (⟨⟨[2, 1, 2, 3, 0, 0]⟩, 4, 6⟩, 0) ∧
    (⟨⟨[2, 1, 2, 3, 0, 0]⟩, 4, 6⟩ : SimpleVector Nat).elems = [2, 1, 2, 3] ∧
    (⟨⟨[2, 1, 2, 3, 0, 0]⟩, 4, 6⟩ : SimpleVector Nat).elems ≠
      (⟨⟨[1, 2, 3, 0, 0, 0]⟩, 3, 6⟩ : SimpleVector Nat).elems.take 0 ++
        3 :: (⟨⟨[1, 2, 3, 0, 0, 0]⟩, 3, 6⟩ : SimpleVector Nat).elems.drop 0 ∧
    (⟨⟨[1, 2, 3, 0, 0, 0]⟩, 3, 6⟩ : SimpleVector Nat).Insert 0 (.external 3) =
      .ok (⟨⟨[3, 1, 2, 3, 0, 0]⟩, 4, 6⟩, 0) ∧
    (⟨⟨[1, 2, 3]⟩, 3, 3⟩ : SimpleVector Nat).Insert 0 (.cell 2) =
      .ok (⟨⟨[3, 1, 2, 3, 0, 0]⟩, 4, 6⟩, 0) ∧
    (⟨⟨[1, 2, 3]⟩, 3, 3⟩ : SimpleVector Nat).Insert 0 (.external 0) =
      .ok (⟨⟨[0, 1, 2, 3, 0, 0]⟩, 4, 6⟩, 0) := by
  decide

/-- C3: for every vector that satisfies the data-model invariant and every
position `i` with `i < length`, `Erase` at `i` returns normally; the logical
elements of the result are the old ones with the `i`-th removed and the order
of the others kept, the length is the old length minus one, the capacity is
unchanged, and the returned position is offset `i`, which now addresses the
element that followed the erased one (or is `end()`). -/
theorem C3_Erase_removes_element (v : SimpleVector T) (i : Nat) (h : v.Inv)
    (hi : i < v.GetSize) :
    ∃ w, v.Erase i = .ok (w, i) ∧
      w.elems = v.elems.eraseIdx i ∧
      w.elems = v.elems.take i ++ v.elems.drop (i + 1) ∧
      w.GetSize = v.GetSize - 1 ∧ w.GetCapacity = v.GetCapacity ∧
      w.elems[i]? = v.elems[i + 1]? := by
  obtain ⟨w, h1, -, h2, h3, h4⟩ := Erase_spec v i h hi
  have hlen : i ≤ v.elems.length := by
    have := h.1
    have := h.2
    rw [elems_length]
    unfold ArrayPtr.extent GetSize at *
    omega
  refine ⟨w, h1, ?_, h2, h3, h4, ?_⟩
  · rw [h2, List.eraseIdx_eq_take_drop_succ]
  · rw [h2, List.getElem?_append_right (by simp [hlen])]
    simp [hlen, List.getElem?_drop]

/-- Witness for C3: erasing position 0 of `[1, 2, 3]` yields `[2, 3]` with
size 2. -/
theorem C3_Erase_removes_element_witness :
    (⟨⟨[1, 2, 3]⟩, 3, 3⟩ : SimpleVector Nat).Inv ∧
    ∃ w, (⟨⟨[1, 2, 3]⟩, 3, 3⟩ : SimpleVector Nat).Erase 0 = .ok (w, 0) ∧
      w.elems = [2, 3] ∧ w.GetSize = 2 ∧ w.GetCapacity = 3 := by
  refine ⟨by decide, ?_⟩
  obtain ⟨w, h1, h2, -, h3, h4, -⟩ :=
    C3_Erase_removes_element (⟨⟨[1, 2, 3]⟩, 3, 3⟩ : SimpleVector Nat) 0 (by decide) (by decide)
  exact ⟨w, h1, h2, h3, h4⟩

/-- C4: for every vector and every index `i`, `At(i)` (mutable overload and
const overload) signals `std::out_of_range` if and only if `i >= GetSize()`;
when `i < GetSize()` it behaves as the unchecked `operator[]`, and (the cells
below the length being allocated) returns the `i`-th logical element. In
particular `At(GetSize())` always fails and, for a non-empty vector,
`At(GetSize() - 1)` does not signal the out-of-range error. -/
theorem C4_At_checked_access (v : SimpleVector T) (i : Nat) :
    (v.At i = .error .out_of_range ↔ i ≥ v.GetSize) ∧
    (v.At_const i = .error .out_of_range ↔ i ≥ v.GetSize) ∧
    (i < v.GetSize →
      v.At i = v.operator_subscript i ∧ v.At_const i = v.operator_subscript_const i) ∧
    (v.GetSize ≤ v.items_.extent → i < v.GetSize →
      ∃ x, v.elems[i]? = some x ∧ v.At i = .ok x ∧ v.At_const i = .ok x ∧
        v.operator_subscript i = .ok x ∧ v.operator_subscript_const i = .ok x) ∧
    v.At v.GetSize = .error .out_of_range ∧
    v.At_const v.GetSize = .error .out_of_range ∧
    (v.GetSize ≠ 0 →
      v.At (v.GetSize - 1) ≠ .error .out_of_range ∧
      v.At_const (v.GetSize - 1) ≠ .error .out_of_range) := by
  have key : ∀ k, v.At k = .error .out_of_range ↔ k ≥ v.GetSize := by
    intro k
    unfold At GetSize
    by_cases hk : k ≥ v.size_
    · simp [hk]
    · rw [if_neg hk]
      unfold ArrayPtr.read
      cases v.items_.raw_ptr_[k]? <;> simp [hk]
  have hconst : ∀ k, v.At_const k = v.At k := fun _ => rfl
  refine ⟨key i, by rw [hconst]; exact key i, ?_, ?_, (key _).2 (le_refl _),
    by rw [hconst]; exact (key _).2 (le_refl _), ?_⟩
  · intro hi
    unfold GetSize at hi
    simp only [At, At_const, operator_subscript, operator_subscript_const, ge_iff_le,
      if_neg (show ¬ v.size_ ≤ i by omega), if_pos (show i ≤ v.size_ by omega), and_self]
  · intro hext hi
    unfold GetSize at hi hext
    unfold ArrayPtr.extent at hext
    obtain ⟨x, hx⟩ : ∃ x, v.items_.raw_ptr_[i]? = some x :=
      ⟨_, List.getElem?_eq_getElem (by omega)⟩
    refine ⟨x, by rw [elems_getElem?, if_pos hi, hx], ?_⟩
    simp only [At, At_const, operator_subscript, operator_subscript_const, ge_iff_le,
      if_neg (show ¬ v.size_ ≤ i by omega), if_pos (show i ≤ v.size_ by omega),
      ArrayPtr.read, hx, and_self]
  · intro hne
    unfold GetSize at hne
    have hk : ¬ (v.GetSize - 1 ≥ v.GetSize) := by unfold GetSize; omega
    exact ⟨fun hc => hk ((key _).1 hc), fun hc => hk ((key _).1 (by rw [← hconst]; exact hc))⟩

/-- Witness for C4: in `[1, 2, 3]`, `At(1)` returns the element 2, as does
`operator[]`. -/
theorem C4_At_checked_access_witness :
    ∃ x, (⟨⟨[1, 2, 3]⟩, 3, 3⟩ : SimpleVector Nat).elems[1]? = some x ∧
      (⟨⟨[1, 2, 3]⟩, 3, 3⟩ : SimpleVector Nat).At 1 = .ok x ∧
      (⟨⟨[1, 2, 3]⟩, 3, 3⟩ : SimpleVector Nat).At_const 1 = .ok x ∧
      (⟨⟨[1, 2, 3]⟩, 3, 3⟩ : SimpleVector Nat).operator_subscript 1 = .ok x ∧
      (⟨⟨[1, 2, 3]⟩, 3, 3⟩ : SimpleVector Nat).operator_subscript_const 1 = .ok x :=
  (C4_At_checked_access (⟨⟨[1, 2, 3]⟩, 3, 3⟩ : SimpleVector Nat) 1).2.2.2.1
    (by decide) (by decide)

/-- C5: for every vector that satisfies the data-model invariant and every
`n`, `Resize(n)` returns normally a vector of length `n` whose logical
elements are the first `min(length, n)` old elements followed by `n - length`
default values (none when `n <= length`); the capacity is unchanged when
`n <= capacity` and is `max(n, 2 * capacity)` when `n > capacity`. -/
theorem C5_Resize_contract [Inhabited T] (v : SimpleVector T) (n : Nat) (h : v.Inv) :
    ∃ w, v.Resize n = .ok w ∧ w.GetSize = n ∧
      w.elems = v.elems.take (min v.GetSize n) ++ List.replicate (n - v.GetSize) default ∧
      (n ≤ v.GetCapacity → w.GetCapacity = v.GetCapacity) ∧
      (n > v.GetCapacity → w.GetCapacity = max n (2 * v.GetCapacity)) := by
  obtain ⟨w, h1, -, h2, h3, h4⟩ := Resize_spec v n h
  refine ⟨w, h1, h3, ?_, ?_, ?_⟩
  · rw [h2]
    congr 1
    unfold elems GetSize
    rw [List.take_take, List.take_take]
    congr 1
    omega
  · intro hn
    unfold GetCapacity at *
    rw [h4, if_pos hn]
  · intro hn
    unfold GetCapacity at *
    rw [h4, if_neg (by omega)]

/-- Witness for C5: resizing `[1, 2, 3]` (capacity 3) to 4 gives `[1, 2, 3, 0]`
with capacity 6. -/
theorem C5_Resize_contract_witness :
    (⟨⟨[1, 2, 3]⟩, 3, 3⟩ : SimpleVector Nat).Inv ∧
    ∃ w, (⟨⟨[1, 2, 3]⟩, 3, 3⟩ : SimpleVector Nat).Resize 4 = .ok w ∧ w.GetSize = 4 ∧
      w.elems = [1, 2, 3, 0] ∧ w.GetCapacity = 6 := by
  refine ⟨by decide, ?_⟩
  obtain ⟨w, h1, h2, h3, -, h4⟩ :=
    C5_Resize_contract (⟨⟨[1, 2, 3]⟩, 3, 3⟩ : SimpleVector Nat) 4 (by decide)
  exact ⟨w, h1, h2, h3, h4 (by decide)⟩

/-- C6, as stated, fails: on `[1, 2, 3]` with capacity 3, `Resize(1)` followed
by `Resize(3)` returns `[1, 0, 0]`, so the elements at `[k, original) = [1, 3)`
are not the values held before; the second `Resize` assigns the default value
to every cell from the current length `k` on. On a vector whose storage is
shorter than its capacity (length 1, capacity 3, one cell) the second
`Resize` writes outside the buffer. -/
theorem C6_Resize_round_trip_counterexample :
    (⟨⟨[1, 2, 3]⟩, 3, 3⟩ : SimpleVector Nat).Inv ∧
    1 < (⟨⟨[1, 2, 3]⟩, 3, 3⟩ : SimpleVector Nat).GetSize ∧
    (⟨⟨[1, 2, 3]⟩, 3, 3⟩ : SimpleVector Nat).GetSize ≤ 3 ∧
    3 ≤ (⟨⟨[1, 2, 3]⟩, 3, 3⟩ : SimpleVector Nat).GetCapacity ∧
    (⟨⟨[1, 2, 3]⟩, 3, 3⟩ : SimpleVector Nat).Resize 1 = .ok ⟨⟨[1, 2, 3]⟩, 1, 3⟩ ∧
    (⟨⟨[1, 2, 3]⟩, 1, 3⟩ : SimpleVector Nat).Resize 3 = .ok ⟨⟨[1, 0, 0]⟩, 3, 3⟩ ∧
    ¬ (∃ w1 w2, (⟨⟨[1, 2, 3]⟩, 3, 3⟩ : SimpleVector Nat).Resize 1 = .ok w1 ∧
        w1.Resize 3 = .ok w2 ∧ w2.GetSize = 3 ∧
        (∀ j, 1 ≤ j → j < (⟨⟨[1, 2, 3]⟩, 3, 3⟩ : SimpleVector Nat).GetSize →
          w2.elems[j]? = (⟨⟨[1, 2, 3]⟩, 3, 3⟩ : SimpleVector Nat).elems[j]?) ∧
        (∀ j, (⟨⟨[1, 2, 3]⟩, 3, 3⟩ : SimpleVector Nat).GetSize ≤ j → j < 3 →
          w2.elems[j]? = some default)) ∧
    (⟨⟨[1]⟩, 1, 3⟩ : SimpleVector Nat).Resize 0 = .ok ⟨⟨[1]⟩, 0, 3⟩ ∧
    (⟨⟨[1]⟩, 0, 3⟩ : SimpleVector Nat).Resize 3 = .error .out_of_bounds := by
  refine ⟨by decide, by decide, by decide, by decide, by decide, by decide, ?_, by decide,
    by decide⟩
  rintro ⟨w1, w2, h1, h2, -, h3, -⟩
  have e1 : (⟨⟨[1, 2, 3]⟩, 3, 3⟩ : SimpleVector Nat).Resize 1 = .ok ⟨⟨[1, 2, 3]⟩, 1, 3⟩ := by
    decide
  rw [e1] at h1
  cases h1
  have e2 : (⟨⟨[1, 2, 3]⟩, 1, 3⟩ : SimpleVector Nat).Resize 3 = .ok ⟨⟨[1, 0, 0]⟩, 3, 3⟩ := by
    decide
  rw [e2] at h2
  cases h2
  exact absurd (h3 1 (by decide) (by decide)) (by decide)

/-- C6, amended: for every vector that satisfies the data-model invariant, of
length `original`, and every `k`, `n` with `k < original <= n <= capacity`,
`Resize(k)` followed by `Resize(n)` returns normally a vector of length `n`
and unchanged capacity in which the elements at `[0, k)` are the old ones and
every element at `[k, n)`, the range `[k, original)` included, is
default-valued. -/
theorem C6_Resize_round_trip_amended [Inhabited T] (v : SimpleVector T) (k n : Nat)
    (h : v.Inv) (hk : k < v.GetSize) (hn : v.GetSize ≤ n) (hc : n ≤ v.GetCapacity) :
    ∃ w1 w2, v.Resize k = .ok w1 ∧ w1.Resize n = .ok w2 ∧ w2.GetSize = n ∧
      w2.GetCapacity = v.GetCapacity ∧
      (∀ j, j < k → w2.elems[j]? = v.elems[j]?) ∧
      (∀ j, k ≤ j → j < n → w2.elems[j]? = some default) := by
  unfold GetSize GetCapacity at *
  obtain ⟨w1, h1, hinv1, he1, hs1, hc1⟩ := Resize_spec v k h
  obtain ⟨w2, h2, -, he2, hs2, hc2⟩ := Resize_spec w1 n hinv1
  rw [if_pos (by omega)] at hc1
  rw [hc1, if_pos hc] at hc2
  have hlen : v.elems.length = v.size_ := by
    have := h.1
    have := h.2
    rw [elems_length]
    unfold ArrayPtr.extent at *
    omega
  refine ⟨w1, w2, h1, h2, hs2, hc2, ?_, ?_⟩
  · intro j hj
    rw [he2, he1]
    simp only [List.getElem?_append, List.getElem?_take, List.getElem?_replicate,
      List.length_take, List.length_append, List.length_replicate, hlen, hs1]
    split_ifs <;> first | omega | rfl
  · intro j hj1 hj2
    rw [he2, he1]
    simp only [List.getElem?_append, List.getElem?_take, List.getElem?_replicate,
      List.length_take, List.length_append, List.length_replicate, hlen, hs1]
    split_ifs <;> first | omega | rfl

/-- Witness for C6 amended: `[1, 2, 3]` with `k = 1`, `n = 3`. -/
theorem C6_Resize_round_trip_amended_witness :
    ∃ w1 w2, (⟨⟨[1, 2, 3]⟩, 3, 3⟩ : SimpleVector Nat).Resize 1 = .ok w1 ∧
      w1.Resize 3 = .ok w2 ∧ w2.GetSize = 3 ∧
      w2.GetCapacity = (⟨⟨[1, 2, 3]⟩, 3, 3⟩ : SimpleVector Nat).GetCapacity ∧
      (∀ j, j < 1 → w2.elems[j]? = (⟨⟨[1, 2, 3]⟩, 3, 3⟩ : SimpleVector Nat).elems[j]?) ∧
      (∀ j, 1 ≤ j → j < 3 → w2.elems[j]? = some default) :=
  C6_Resize_round_trip_amended (⟨⟨[1, 2, 3]⟩, 3, 3⟩ : SimpleVector Nat) 1 3
    (by decide) (by decide) (by decide) (by decide)

/-- C7: for every vector that satisfies the data-model invariant and every
`n`: if `n <= capacity`, `Reserve(n)` leaves the whole state (storage, length,
capacity) unchanged; if `n > capacity`, `Reserve(n)` returns normally a vector
of capacity exactly `n` whose length and logical elements are unchanged. -/
theorem C7_Reserve_contract [Inhabited T] (v : SimpleVector T) (n : Nat) (h : v.Inv) :
    (n ≤ v.GetCapacity → v.Reserve n = .ok v) ∧
    (n > v.GetCapacity →
      ∃ w, v.Reserve n = .ok w ∧ w.GetCapacity = n ∧ w.GetSize = v.GetSize ∧
        w.elems = v.elems) := by
  unfold GetCapacity
  constructor
  · intro hn
    simp only [SimpleVector.Reserve, gt_iff_lt, if_neg (show ¬ v.capacity_ < n by omega)]
  · intro hn
    obtain ⟨w, h1, -, h2, h3, h4⟩ := Reserve_spec v n h hn
    exact ⟨w, h1, h4, h3, h2⟩

/-- Witness for C7: `Reserve(2)` and `Reserve(5)` on `[1, 2, 3]` of capacity
3. -/
theorem C7_Reserve_contract_witness :
    (⟨⟨[1, 2, 3]⟩, 3, 3⟩ : SimpleVector Nat).Reserve 2 = .ok ⟨⟨[1, 2, 3]⟩, 3, 3⟩ ∧
    ∃ w, (⟨⟨[1, 2, 3]⟩, 3, 3⟩ : SimpleVector Nat).Reserve 5 = .ok w ∧ w.GetCapacity = 5 ∧
      w.GetSize = 3 ∧ w.elems = [1, 2, 3] :=
  ⟨(C7_Reserve_contract (⟨⟨[1, 2, 3]⟩, 3, 3⟩ : SimpleVector Nat) 2 (by decide)).1 (by decide),
    (C7_Reserve_contract (⟨⟨[1, 2, 3]⟩, 3, 3⟩ : SimpleVector Nat) 5 (by decide)).2 (by decide)⟩

/-- C8: growth invariant. For every list of values, calling `PushBack` once
per value on the default-constructed vector returns normally a vector whose
length is the number of values, which holds the values in push order and
whose capacity is at least that number. -/
theorem C8_PushBack_growth_invariant [Inhabited T] (values : List T) :
    ∃ w, PushBack_all (empty : SimpleVector T) values = .ok w ∧
      w.GetSize = values.length ∧ w.elems = values ∧ w.GetCapacity ≥ values.length := by
  obtain ⟨w, h1, hinv, h2, h3⟩ := PushBack_all_spec values (empty : SimpleVector T) empty_Inv
  have hs : w.size_ = values.length := by rw [h3]; simp [empty]
  refine ⟨w, h1, hs, ?_, ?_⟩
  · rw [h2]; simp [elems, empty, ArrayPtr.null]
  · have := hinv.1
    unfold GetCapacity
    omega

/-- C9: `Insert` at `end()` is equivalent to `PushBack`. For every vector that
satisfies the data-model invariant and every argument `value` that denotes `x`
when the call starts (an object outside the buffer or a cell of the buffer),
`Insert(end(), value)` and `PushBack(x)` both return normally, `Insert`
returns the old `end()` offset, and the two results have the same length, the
same capacity and the same logical elements. -/
theorem C9_Insert_at_end_is_PushBack [Inhabited T] (v : SimpleVector T)
    (value : ValueRef T) (x : T) (h : v.Inv) (hx : value.get v.items_ = .ok x) :
    ∃ w1 w2, v.Insert v.GetSize value = .ok (w1, v.GetSize) ∧ v.PushBack x = .ok w2 ∧
      w1.GetSize = w2.GetSize ∧ w1.GetCapacity = w2.GetCapacity ∧ w1.elems = w2.elems := by
  unfold GetSize GetCapacity
  obtain ⟨w1, y, h1, -, he1, hs1, hc1, hy, -⟩ := Insert_spec v v.size_ value x h (le_refl _) hx
  obtain ⟨w2, h2, -, he2, hs2, hc2⟩ := PushBack_spec v x h
  have hlen : v.elems.length ≤ v.size_ := by
    rw [elems_length]; omega
  have hyx : y = x := hy (fun j _ _ hj => hj)
  refine ⟨w1, w2, h1, h2, by rw [hs1, hs2], by rw [hc1, hc2], ?_⟩
  rw [he1, he2, hyx, List.take_of_length_le hlen, List.drop_of_length_le hlen]

/-- Witness for C9: a full vector, a vector with spare capacity, and a `value`
that refers to a cell of the vector itself. -/
theorem C9_Insert_at_end_is_PushBack_witness :
    (∃ w1 w2, (⟨⟨[1, 2]⟩, 2, 2⟩ : SimpleVector Nat).Insert 2 (.external 7) = .ok (w1, 2) ∧
      (⟨⟨[1, 2]⟩, 2, 2⟩ : SimpleVector Nat).PushBack 7 = .ok w2 ∧
      w1.GetSize = w2.GetSize ∧ w1.GetCapacity = w2.GetCapacity ∧ w1.elems = w2.elems) ∧
    (∃ w1 w2, (⟨⟨[1, 2, 0]⟩, 2, 3⟩ : SimpleVector Nat).Insert 2 (.external 7) = .ok (w1, 2) ∧
      (⟨⟨[1, 2, 0]⟩, 2, 3⟩ : SimpleVector Nat).PushBack 7 = .ok w2 ∧
      w1.GetSize = w2.GetSize ∧ w1.GetCapacity = w2.GetCapacity ∧ w1.elems = w2.elems) ∧
    (∃ w1 w2, (⟨⟨[1, 2, 0]⟩, 2, 3⟩ : SimpleVector Nat).Insert 2 (.cell 0) = .ok (w1, 2) ∧
      (⟨⟨[1, 2, 0]⟩, 2, 3⟩ : SimpleVector Nat).PushBack 1 = .ok w2 ∧
      w1.GetSize = w2.GetSize ∧ w1.GetCapacity = w2.GetCapacity ∧ w1.elems = w2.elems) :=
  ⟨C9_Insert_at_end_is_PushBack (⟨⟨[1, 2]⟩, 2, 2⟩ : SimpleVector Nat) (.external 7) 7
      (by decide) (by decide),
    C9_Insert_at_end_is_PushBack (⟨⟨[1, 2, 0]⟩, 2, 3⟩ : SimpleVector Nat) (.external 7) 7
      (by decide) (by decide),
    C9_Insert_at_end_is_PushBack (⟨⟨[1, 2, 0]⟩, 2, 3⟩ : SimpleVector Nat) (.cell 0) 1
      (by decide) (by decide)⟩

/-- C10: on vectors whose cells below the length are allocated, `operator==`
returns `true` exactly when the two vectors have the same length and their
logical elements are pairwise `==` in order, whatever the capacities, and
`operator!=` returns its negation. Consequently, when `==` on elements is
reflexive, for every list `L` the vector constructed from the literal list `L`
(capacity `|L|`) compares equal to the vector obtained from the empty vector by
`PushBack` of each element of `L` in order. -/
theorem C10_operator_eq_contract [BEq T] [Inhabited T] (lhs rhs : SimpleVector T)
    (L : List T) (hl : lhs.GetSize ≤ lhs.items_.extent)
    (hr : rhs.GetSize ≤ rhs.items_.extent) :
    (∃ b, operator_eq lhs rhs = .ok b ∧ operator_ne lhs rhs = .ok (!b) ∧
      (b = true ↔ lhs.GetSize = rhs.GetSize ∧ ∀ j, j < lhs.GetSize →
        ∃ x y, lhs.elems[j]? = some x ∧ rhs.elems[j]? = some y ∧ (x == y) = true)) ∧
    ((∀ x : T, (x == x) = true) →
      ∃ a b, ofList L = .ok a ∧ PushBack_all (empty : SimpleVector T) L = .ok b ∧
        a.GetCapacity = L.length ∧ L.length ≤ b.GetCapacity ∧
        operator_eq a b = .ok true ∧ operator_ne a b = .ok false) := by
  constructor
  · obtain ⟨b, hb, hiff⟩ := operator_eq_spec lhs rhs hl hr
    exact ⟨b, hb, by simp only [operator_ne, hb], hiff⟩
  · intro hrefl
    obtain ⟨a, ha, hainv, hael, hasz, hacap⟩ := ofList_spec L
    obtain ⟨b, hb, hbinv, hbel, hbsz⟩ :=
      PushBack_all_spec L (empty : SimpleVector T) empty_Inv
    have hbel1 : b.elems = L := by rw [hbel]; simp [elems, empty, ArrayPtr.null]
    have hbsz1 : b.size_ = L.length := by rw [hbsz]; simp [empty]
    obtain ⟨r, hr1, hiff⟩ := operator_eq_spec a b (le_trans hainv.1 hainv.2)
      (le_trans hbinv.1 hbinv.2)
    have hrt : r = true := by
      rw [hiff]
      refine ⟨by rw [hasz, hbsz1], fun j hj => ?_⟩
      rw [hasz] at hj
      refine ⟨L[j], L[j], ?_, ?_, hrefl _⟩
      · rw [hael, List.getElem?_eq_getElem hj]
      · rw [hbel1, List.getElem?_eq_getElem hj]
    subst hrt
    refine ⟨a, b, ha, hb, hacap, ?_, hr1, by simp only [operator_ne, hr1]; rfl⟩
    have := hbinv.1
    unfold GetCapacity
    omega

/-- Witness for C10: the literal vector `[1, 2, 3]` and the vector built by
three `PushBack` calls compare equal. -/
theorem C10_operator_eq_contract_witness :
    ∃ a b, ofList [1, 2, 3] = .ok a ∧
      PushBack_all (empty : SimpleVector Nat) [1, 2, 3] = .ok b ∧
      a.GetCapacity = [1, 2, 3].length ∧ [1, 2, 3].length ≤ b.GetCapacity ∧
      operator_eq a b = .ok true ∧ operator_ne a b = .ok false :=
  (C10_operator_eq_contract (⟨⟨[1, 2, 3, 0]⟩, 3, 4⟩ : SimpleVector Nat) ⟨⟨[1, 2, 4]⟩, 3, 3⟩
    [1, 2, 3] (by decide) (by decide)).2 (fun x => by simp)

/-- C11: on vectors whose cells below the length are allocated, `operator<`
returns `true` exactly when the logical element sequence of `lhs` is
lexicographically smaller than that of `rhs` (the empty list is smaller than
every non-empty one; `x :: xs` is smaller than `y :: ys` when `x < y`, or when
neither `x < y` nor `y < x` and `xs` is smaller than `ys`), whatever the
capacities and the cells past the length; `>`, `<=` and `>=` are `rhs < lhs`,
its negation and the negation of `lhs < rhs`; and a proper prefix is smaller
than the longer vector. -/
theorem C11_operator_lt_lexicographic [LT T] [∀ x y : T, Decidable (x < y)]
    (lhs rhs : SimpleVector T) (hl : lhs.GetSize ≤ lhs.items_.extent)
    (hr : rhs.GetSize ≤ rhs.items_.extent) :
    ∃ lt gt, operator_lt lhs rhs = .ok lt ∧ operator_lt rhs lhs = .ok gt ∧
      (lt = true ↔ List.lt lhs.elems rhs.elems) ∧
      (gt = true ↔ List.lt rhs.elems lhs.elems) ∧
      operator_gt lhs rhs = .ok gt ∧
      operator_le lhs rhs = .ok (!gt) ∧
      operator_ge lhs rhs = .ok (!lt) ∧
      (∀ y t, rhs.elems = lhs.elems ++ y :: t → lt = true) := by
  obtain ⟨lt, h1, h2⟩ := operator_lt_spec lhs rhs hl hr
  obtain ⟨gt, h3, h4⟩ := operator_lt_spec rhs lhs hr hl
  refine ⟨lt, gt, h1, h3, h2, h4, h3, ?_, ?_, ?_⟩
  · simp only [operator_le, operator_gt, h3]
  · simp only [operator_ge, h1]
  · intro y t he
    rw [h2, he]
    exact list_lt_append_cons _ _ _

/-- Witness for C11: `[1, 2] < [1, 2, 3]` and `[1, 3] > [1, 2, 9]`. -/
theorem C11_operator_lt_lexicographic_witness :
    operator_lt (⟨⟨[1, 2]⟩, 2, 2⟩ : SimpleVector Nat) ⟨⟨[1, 2, 3]⟩, 3, 3⟩ = .ok true ∧
    operator_gt (⟨⟨[1, 3]⟩, 2, 2⟩ : SimpleVector Nat) ⟨⟨[1, 2, 9]⟩, 3, 3⟩ = .ok true := by
  constructor
  · obtain ⟨lt, gt, h1, -, -, -, -, -, -, h2⟩ :=
      C11_operator_lt_lexicographic (⟨⟨[1, 2]⟩, 2, 2⟩ : SimpleVector Nat) ⟨⟨[1, 2, 3]⟩, 3, 3⟩
        (by decide) (by decide)
    rw [h1, h2 3 [] rfl]
  · obtain ⟨lt, gt, -, -, -, h2, h1, -, -, -⟩ :=
      C11_operator_lt_lexicographic (⟨⟨[1, 3]⟩, 2, 2⟩ : SimpleVector Nat) ⟨⟨[1, 2, 9]⟩, 3, 3⟩
        (by decide) (by decide)
    rw [h1, h2.2 (List.lt.tail (by decide) (by decide) (List.lt.head _ _ (by decide)))]

/-- C12: for every vector `s`, move construction gives the new vector exactly
the former storage, length and capacity of `s` and leaves `s` with length 0,
capacity 0 and null storage; a subsequent `PushBack(x)` on `s` (either
overload) returns normally the one-element vector `[x]` with capacity 1. -/
theorem C12_move_constructor [Inhabited T] (s : SimpleVector T) (x : T) :
    (ofMove s).1 = s ∧
    (ofMove s).2.GetSize = 0 ∧ (ofMove s).2.GetCapacity = 0 ∧
    (ofMove s).2.items_ = ArrayPtr.null ∧
    (ofMove s).2 = empty ∧
    (∃ w, (ofMove s).2.PushBack x = .ok w ∧ w.elems = [x] ∧ w.GetSize = 1 ∧
      w.GetCapacity = 1) ∧
    (∃ w, (ofMove s).2.PushBack_rvalue x = .ok w ∧ w.elems = [x] ∧ w.GetSize = 1 ∧
      w.GetCapacity = 1) := by
  have hp : (empty : SimpleVector T).PushBack x = .ok ⟨⟨[x]⟩, 1, 1⟩ := by
    simp [PushBack, empty, ArrayPtr.null, copy, copy_n, ArrayPtr.ofSize, ArrayPtr.write]
  exact ⟨rfl, rfl, rfl, rfl, rfl, ⟨⟨⟨[x]⟩, 1, 1⟩, hp, rfl, rfl, rfl⟩,
    ⟨⟨⟨[x]⟩, 1, 1⟩, (PushBack_rvalue_eq _ x).trans hp, rfl, rfl, rfl⟩⟩

/-- C13, evaluated where it fails: `a = std::move(b)` for two distinct
vectors with equal contents, `a = [1, 2]` (capacity 2) and `b = [1, 2]`
(capacity 4). The guard `*this != rhs` compares values, finds them equal and
skips the move: `b` keeps length 2 and capacity 4, and `a` keeps capacity 2.
When the contents differ the move is performed and `b` is left empty. -/
theorem C13_move_assignment_equal_contents :
    operator_assign_rvalue (⟨⟨[1, 2]⟩, 2, 2⟩ : SimpleVector Nat) ⟨⟨[1, 2, 0, 0]⟩, 2, 4⟩ =
      .ok (⟨⟨[1, 2]⟩, 2, 2⟩, ⟨⟨[1, 2, 0, 0]⟩, 2, 4⟩, ⟨⟨[1, 2]⟩, 2, 2⟩) ∧
    (⟨⟨[1, 2, 0, 0]⟩, 2, 4⟩ : SimpleVector Nat).GetSize ≠ 0 ∧
    (⟨⟨[1, 2, 0, 0]⟩, 2, 4⟩ : SimpleVector Nat).GetCapacity ≠ 0 ∧
    (⟨⟨[1, 2]⟩, 2, 2⟩ : SimpleVector Nat).GetCapacity ≠
      (⟨⟨[1, 2, 0, 0]⟩, 2, 4⟩ : SimpleVector Nat).GetCapacity ∧
    operator_assign_rvalue (⟨⟨[1, 2]⟩, 2, 2⟩ : SimpleVector Nat) ⟨⟨[1, 5, 0, 0]⟩, 2, 4⟩ =
      .ok (⟨⟨[1, 5, 0, 0]⟩, 2, 4⟩, ⟨⟨[]⟩, 0, 0⟩, ⟨⟨[1, 5]⟩, 2, 4⟩) := by
  decide

/-- C14: copy assignment has value semantics. For vectors whose cells below
the length are allocated, `a = b` returns normally, leaves `b` as it was and
leaves `a` with the length of `b` and with logical elements that compare equal
to those of `b` (`a == b` holds when `==` on elements is reflexive; the element
lists are identical when `==` is equality); and `v = v` leaves the length, the
capacity and the logical elements of `v` as they were. -/
theorem C14_copy_assignment [BEq T] [Inhabited T] (a b v : SimpleVector T)
    (ha : a.GetSize ≤ a.items_.extent) (hb : b.GetSize ≤ b.items_.extent)
    (hv : v.GetSize ≤ v.items_.extent) :
    (∃ w, operator_assign a b = .ok (w, b) ∧ w.GetSize = b.GetSize ∧
      ((∀ x : T, (x == x) = true) → operator_eq w b = .ok true) ∧
      ((∀ x y : T, (x == y) = true → x = y) → w.elems = b.elems)) ∧
    (∃ w, operator_assign v v = .ok (w, v) ∧ w.GetSize = v.GetSize ∧
      w.GetCapacity = v.GetCapacity ∧ w.elems = v.elems) := by
  unfold GetSize at *
  constructor
  · obtain ⟨w, hw, hlive, hsz, hcase⟩ := operator_assign_spec a b ha hb
    refine ⟨w, hw, hsz, ?_, ?_⟩
    · intro hrefl
      rcases hcase with ⟨heq, rfl⟩ | ⟨hel, -, -⟩
      · exact heq
      · exact operator_eq_of_elems_eq w b hlive hb hsz hel hrefl
    · intro hlaw
      rcases hcase with ⟨heq, rfl⟩ | ⟨hel, -, -⟩
      · exact (elems_eq_of_operator_eq w b ha hb heq).2 hlaw
      · exact hel
  · obtain ⟨w, hw, -, hsz, hcase⟩ := operator_assign_spec v v hv hv
    refine ⟨w, hw, hsz, ?_, ?_⟩
    · rcases hcase with ⟨-, rfl⟩ | ⟨-, hcap, -⟩
      · rfl
      · exact hcap
    · rcases hcase with ⟨-, rfl⟩ | ⟨hel, -, -⟩
      · rfl
      · exact hel

/-- Witness for C14: assigning `[4, 5, 6]` to `[1, 2]`, and `[1, 2]` to itself. -/
theorem C14_copy_assignment_witness :
    (∃ w, operator_assign (⟨⟨[1, 2]⟩, 2, 2⟩ : SimpleVector Nat) ⟨⟨[4, 5, 6, 0]⟩, 3, 4⟩ =
        .ok (w, ⟨⟨[4, 5, 6, 0]⟩, 3, 4⟩) ∧ w.GetSize = 3 ∧
      operator_eq w ⟨⟨[4, 5, 6, 0]⟩, 3, 4⟩ = .ok true ∧ w.elems = [4, 5, 6]) ∧
    (∃ w, operator_assign (⟨⟨[1, 2]⟩, 2, 2⟩ : SimpleVector Nat) ⟨⟨[1, 2]⟩, 2, 2⟩ =
        .ok (w, ⟨⟨[1, 2]⟩, 2, 2⟩) ∧ w.GetSize = 2 ∧ w.GetCapacity = 2 ∧ w.elems = [1, 2]) := by
  obtain ⟨⟨w, h1, h2, h3, h4⟩, h5⟩ :=
    C14_copy_assignment (⟨⟨[1, 2]⟩, 2, 2⟩ : SimpleVector Nat) ⟨⟨[4, 5, 6, 0]⟩, 3, 4⟩
      ⟨⟨[1, 2]⟩, 2, 2⟩ (by decide) (by decide) (by decide)
  exact ⟨⟨w, h1, h2, h3 (fun x => by simp), h4 (fun x y h => by simpa using h)⟩, h5⟩

/-- C15, evaluated where it fails: copy construction from `[1, 2]` with
capacity 4, a vector that satisfies the data-model invariant. The new buffer
has 2 cells holding `1, 2` and the length is 2, but the capacity is 4, the
capacity of the source, not the length 2. -/
theorem C15_copy_constructor_keeps_source_capacity :
    (⟨⟨[1, 2, 0, 0]⟩, 2, 4⟩ : SimpleVector Nat).Inv ∧
    ofCopy (⟨⟨[1, 2, 0, 0]⟩, 2, 4⟩ : SimpleVector Nat) = .ok ⟨⟨[1, 2]⟩, 2, 4⟩ ∧
    (⟨⟨[1, 2]⟩, 2, 4⟩ : SimpleVector Nat).items_.extent = 2 ∧
    (⟨⟨[1, 2]⟩, 2, 4⟩ : SimpleVector Nat).elems = [1, 2] ∧
    (⟨⟨[1, 2]⟩, 2, 4⟩ : SimpleVector Nat).GetSize = 2 ∧
    (⟨⟨[1, 2]⟩, 2, 4⟩ : SimpleVector Nat).GetCapacity = 4 ∧
    (⟨⟨[1, 2]⟩, 2, 4⟩ : SimpleVector Nat).GetCapacity ≠
      (⟨⟨[1, 2, 0, 0]⟩, 2, 4⟩ : SimpleVector Nat).GetSize := by
  decide

/-- C16: `length <= capacity` holds in every reachable state: in the result of
every construction form (empty, sized, sized-fill, literal list, copy, move,
capacity request) and in the result of every public mutating operation
(`PushBack`, `Insert`, `Erase`, `PopBack`, `Resize`, `Reserve`, `Clear`,
`swap`, copy and move assignment) that returns normally from such a state. -/
theorem C16_size_le_capacity_invariant [BEq T] [Inhabited T] (v : SimpleVector T)
    (h : Reachable v) : v.GetSize ≤ v.GetCapacity :=
  Reachable_size_le_capacity v h

/-- Witness for C16: the state after `Resize(8)` on the copy of the vector
built as literal `[1, 2, 3]`, `Reserve(7)`, `PushBack(4)`. -/
theorem C16_size_le_capacity_invariant_witness :
    (⟨⟨[1, 2, 3, 4, 0, 0, 0, 0, 0, 0, 0, 0, 0, 0]⟩, 8, 14⟩ : SimpleVector Nat).GetSize ≤
      (⟨⟨[1, 2, 3, 4, 0, 0, 0, 0, 0, 0, 0, 0, 0, 0]⟩, 8, 14⟩ : SimpleVector Nat).GetCapacity :=
  C16_size_le_capacity_invariant _
    (Reachable.Resize ⟨⟨[1, 2, 3, 4]⟩, 4, 7⟩ _ 8
      (Reachable.ofCopy ⟨⟨[1, 2, 3, 4, 0, 0, 0]⟩, 4, 7⟩ _
        (Reachable.PushBack ⟨⟨[1, 2, 3, 0, 0, 0, 0]⟩, 3, 7⟩ _ 4
          (Reachable.Reserve ⟨⟨[1, 2, 3]⟩, 3, 3⟩ _ 7
            (Reachable.ofList [1, 2, 3] _ (by decide)) (by decide))
          (by decide))
        (by decide))
      (by decide))

/-- C17, evaluated where it fails. Construction from the capacity request
`Reserve(3)` gives capacity 3 with null storage, so no index below the
capacity addresses an allocated cell and `PushBack` writes outside the buffer.
Copy construction from `[1, 2]` with capacity 4 (a vector that satisfies the
invariant) gives capacity 4 with a buffer of 2 cells, and `PushBack` on the
copy writes outside the buffer. The other construction forms (empty, sized,
sized-fill, literal list, move) do give storage of at least `capacity`
cells (for move: the storage, length and capacity of the source). -/
theorem C17_constructors_storage [Inhabited T] (n : Nat) (x : T) (init : List T)
    (s : SimpleVector T) :
    ((ofReserve (SimpleVectorModel.Reserve 3) : SimpleVector Nat) = ⟨⟨[]⟩, 0, 3⟩ ∧
      (ofReserve (SimpleVectorModel.Reserve 3) : SimpleVector Nat).GetCapacity > 0 ∧
      (ofReserve (SimpleVectorModel.Reserve 3) : SimpleVector Nat).items_.extent = 0 ∧
      ¬ (ofReserve (SimpleVectorModel.Reserve 3) : SimpleVector Nat).Inv ∧
      (ofReserve (SimpleVectorModel.Reserve 3) : SimpleVector Nat).PushBack 1 =
        .error .out_of_bounds) ∧
    ((⟨⟨[1, 2, 0, 0]⟩, 2, 4⟩ : SimpleVector Nat).Inv ∧
      ofCopy (⟨⟨[1, 2, 0, 0]⟩, 2, 4⟩ : SimpleVector Nat) = .ok ⟨⟨[1, 2]⟩, 2, 4⟩ ∧
      (⟨⟨[1, 2]⟩, 2, 4⟩ : SimpleVector Nat).items_.extent = 2 ∧
      ¬ (⟨⟨[1, 2]⟩, 2, 4⟩ : SimpleVector Nat).Inv ∧
      (⟨⟨[1, 2]⟩, 2, 4⟩ : SimpleVector Nat).PushBack 3 = .error .out_of_bounds) ∧
    (empty : SimpleVector T).GetCapacity ≤ (empty : SimpleVector T).items_.extent ∧
    (∃ w : SimpleVector T, ofSize n = .ok w ∧ w.GetCapacity ≤ w.items_.extent) ∧
    (∃ w : SimpleVector T, ofSizeValue n x = .ok w ∧ w.GetCapacity ≤ w.items_.extent) ∧
    (∃ w : SimpleVector T, ofList init = .ok w ∧ w.GetCapacity ≤ w.items_.extent) ∧
    (ofMove s).1 = s := by
  refine ⟨by decide, by decide, le_refl _, ?_, ?_, ?_, rfl⟩
  · obtain ⟨w, hw, hinv, -⟩ := @ofSize_spec T _ n
    exact ⟨w, hw, hinv.2⟩
  · obtain ⟨w, hw, hinv, -⟩ := ofSizeValue_spec n x
    exact ⟨w, hw, hinv.2⟩
  · obtain ⟨w, hw, hinv, -⟩ := ofList_spec init
    exact ⟨w, hw, hinv.2⟩

/-- C18, evaluated where it fails: the assertion of `operator[]` (both
overloads) is `index <= size_`, so it passes exactly when `i <= size`, in
particular at `i = size`, which is outside `[0, size)`. On `[1, 2, 3]` the
index 3 passes the assertion and the access is outside the buffer. -/
theorem C18_subscript_assert_accepts_size (v : SimpleVector T) (i : Nat) :
    (v.operator_subscript i ≠ .error .assertion ↔ i ≤ v.GetSize) ∧
    (v.operator_subscript_const i ≠ .error .assertion ↔ i ≤ v.GetSize) ∧
    v.operator_subscript v.GetSize ≠ .error .assertion ∧
    v.operator_subscript_const v.GetSize ≠ .error .assertion ∧
    (⟨⟨[1, 2, 3]⟩, 3, 3⟩ : SimpleVector Nat).operator_subscript 3 = .error .out_of_bounds ∧
    (⟨⟨[1, 2, 3]⟩, 3, 3⟩ : SimpleVector Nat).operator_subscript_const 3 =
      .error .out_of_bounds ∧
    (⟨⟨[1, 2, 3, 0]⟩, 3, 4⟩ : SimpleVector Nat).operator_subscript 3 = .ok 0 := by
  have key : ∀ k, v.operator_subscript k ≠ .error .assertion ↔ k ≤ v.GetSize := by
    intro k
    unfold operator_subscript GetSize
    by_cases hk : k ≤ v.size_
    · rw [if_pos hk]
      unfold ArrayPtr.read
      cases v.items_.raw_ptr_[k]? <;> simp [hk]
    · simp [hk]
  have hconst : ∀ k, v.operator_subscript_const k = v.operator_subscript k := fun _ => rfl
  refine ⟨key i, by rw [hconst]; exact key i, (key _).2 (le_refl _),
    by rw [hconst]; exact (key _).2 (le_refl _), by decide, by decide, by decide⟩

/-- C19: every mutating operation keeps its buffer accesses in bounds and
preserves the storage invariant. For every vector with `length <= capacity`
and a buffer of at least `capacity` cells, each of `PushBack`, `Insert`
(position in `[begin, end]`, `value` a reference to an object outside the
buffer or to a cell of it), `Erase` (position in `[begin, end)`), `PopBack`
(non-empty), `Resize`, `Reserve`, `Clear` and `swap` returns normally, so no
cell outside the extent of a buffer is read or written, and the resulting
vector again has `length <= capacity <= allocated cell count`. -/
theorem C19_mutators_preserve_storage_invariant [Inhabited T] (v other : SimpleVector T)
    (x y : T) (value : ValueRef T) (i n : Nat) (h : v.Inv) (ho : other.Inv) :
    (∃ w, v.PushBack x = .ok w ∧ w.Inv) ∧
    (∃ w, v.PushBack_rvalue x = .ok w ∧ w.Inv) ∧
    (i ≤ v.GetSize → value.get v.items_ = .ok y →
      (∃ w, v.Insert i value = .ok (w, i) ∧ w.Inv) ∧
      (∃ w, v.Insert_rvalue i value = .ok (w, i) ∧ w.Inv)) ∧
    (i < v.GetSize → ∃ w, v.Erase i = .ok (w, i) ∧ w.Inv) ∧
    (v.GetSize ≠ 0 → ∃ w, v.PopBack = .ok w ∧ w.Inv) ∧
    (∃ w, v.Resize n = .ok w ∧ w.Inv) ∧
    (∃ w, v.Reserve n = .ok w ∧ w.Inv) ∧
    v.Clear.Inv ∧
    ((swap v other).1.Inv ∧ (swap v other).2.Inv) ∧
    ((swap_rvalue v other).1.Inv ∧ (swap_rvalue v other).2.Inv) := by
  refine ⟨?_, ?_, ?_, ?_, ?_, ?_, ?_, ?_, ⟨ho, h⟩, ⟨ho, h⟩⟩
  · obtain ⟨w, h1, h2, -⟩ := PushBack_spec v x h
    exact ⟨w, h1, h2⟩
  · obtain ⟨w, h1, h2, -⟩ := PushBack_spec v x h
    exact ⟨w, (PushBack_rvalue_eq v x).trans h1, h2⟩
  · intro hi hy
    obtain ⟨w, -, h1, h2, -⟩ := Insert_spec v i value y h hi hy
    exact ⟨⟨w, h1, h2⟩, ⟨w, (Insert_rvalue_eq v i value).trans h1, h2⟩⟩
  · intro hi
    obtain ⟨w, h1, h2, -⟩ := Erase_spec v i h hi
    exact ⟨w, h1, h2⟩
  · intro hne
    unfold GetSize at hne
    refine ⟨⟨v.items_, v.size_ - 1, v.capacity_⟩, by simp only [PopBack, ne_eq, hne,
      not_false_eq_true, if_true], ?_⟩
    have h1 := h.1
    exact ⟨by simp only; omega, h.2⟩
  · obtain ⟨w, h1, h2, -⟩ := Resize_spec v n h
    exact ⟨w, h1, h2⟩
  · by_cases hn : v.capacity_ < n
    · obtain ⟨w, h1, h2, -⟩ := Reserve_spec v n h hn
      exact ⟨w, h1, h2⟩
    · exact ⟨v, by simp only [SimpleVector.Reserve, gt_iff_lt, if_neg hn], h⟩
  · exact ⟨Nat.zero_le _, h.2⟩

/-- Witness for C19: the operations on `[1, 2, 3]` with capacity 3, swapped with
`[7]` of capacity 2. -/
theorem C19_mutators_preserve_storage_invariant_witness :
    (∃ w, (⟨⟨[1, 2, 3]⟩, 3, 3⟩ : SimpleVector Nat).Insert 1 (.cell 2) = .ok (w, 1) ∧ w.Inv) ∧
    (∃ w, (⟨⟨[1, 2, 3]⟩, 3, 3⟩ : SimpleVector Nat).Erase 1 = .ok (w, 1) ∧ w.Inv) ∧
    (∃ w, (⟨⟨[1, 2, 3]⟩, 3, 3⟩ : SimpleVector Nat).PopBack = .ok w ∧ w.Inv) ∧
    (∃ w, (⟨⟨[1, 2, 3]⟩, 3, 3⟩ : SimpleVector Nat).Resize 5 = .ok w ∧ w.Inv) := by
  obtain ⟨-, -, h1, h2, h3, h4, -⟩ :=
    C19_mutators_preserve_storage_invariant (⟨⟨[1, 2, 3]⟩, 3, 3⟩ : SimpleVector Nat)
      ⟨⟨[7, 0]⟩, 1, 2⟩ 9 3 (.cell 2) 1 5 (by decide) (by decide)
  exact ⟨(h1 (by decide) (by decide)).1, h2 (by decide), h3 (by decide), h4⟩

/-- C20: for every `n >= 1`, after `n` calls of `PushBack` (the two overloads
have the same effect) on the default-constructed vector, the capacity is
`2 ^ ceil(log2 n)`, the least power of two that is `>= n`, hence `< 2 * n`, and
exactly `1 + ceil(log2 n)` of the `n` calls took the reallocating branch. -/
theorem C20_PushBack_capacity_power_of_two [Inhabited T] (values : List T)
    (hn : 1 ≤ values.length) :
    ∃ w k, PushBack_count (empty : SimpleVector T) values = .ok (w, k) ∧
      PushBack_all (empty : SimpleVector T) values = .ok w ∧
      (∀ (u : SimpleVector T) (x : T), u.PushBack_rvalue x = u.PushBack x) ∧
      w.GetSize = values.length ∧
      w.GetCapacity = 2 ^ Nat.clog 2 values.length ∧
      values.length ≤ w.GetCapacity ∧
      (∀ m, values.length ≤ 2 ^ m → w.GetCapacity ≤ 2 ^ m) ∧
      w.GetCapacity < 2 * values.length ∧
      k = 1 + Nat.clog 2 values.length := by
  cases values with
  | nil => simp at hn
  | cons x xs =>
    obtain ⟨v1, h1, hinv, -, hsz, hcap⟩ := PushBack_spec (empty : SimpleVector T) x empty_Inv
    have hsz1 : v1.size_ = 1 := by rw [hsz]; rfl
    have hcap1 : v1.capacity_ = 2 ^ Nat.clog 2 v1.size_ := by
      rw [hcap, hsz1, Nat.clog_one_right]; rfl
    obtain ⟨w, k, hw1, hw2, hw3, hw4, hw5⟩ := PushBack_count_spec xs v1 hinv (by omega) hcap1
    have hlen : w.size_ = (x :: xs).length := by rw [hw3, hsz1, List.length_cons]; omega
    rw [hsz1, Nat.clog_one_right] at hw5
    have hfirst : ¬ (empty : SimpleVector T).size_ < (empty : SimpleVector T).capacity_ :=
      Nat.lt_irrefl 0
    unfold GetSize GetCapacity
    rw [← hlen]
    refine ⟨w, k + 1, ?_, ?_, fun u y => rfl, rfl, hw4, ?_, ?_, ?_, by omega⟩
    · simp only [PushBack_count, h1, hw1, if_neg hfirst]
    · simp only [PushBack_all, h1, hw2]
    · rw [hw4]; exact Nat.le_pow_clog (by decide) _
    · intro m hm
      rw [hw4]
      exact Nat.pow_le_pow_right (by decide) ((Nat.le_pow_iff_clog_le (by decide)).1 hm)
    · rw [hw4]
      by_cases h2 : 2 ≤ w.size_
      · have hlt := Nat.pow_pred_clog_lt_self (by decide : 1 < 2) (show 1 < w.size_ by omega)
        have hpos := Nat.clog_pos (by decide : 1 < 2) h2
        have e : Nat.clog 2 w.size_ = (Nat.clog 2 w.size_).pred + 1 := by
          rw [Nat.pred_eq_sub_one]; omega
        rw [e, Nat.pow_succ]
        omega
      · have e1 : w.size_ = 1 := by rw [hlen, List.length_cons] at *; omega
        rw [e1, Nat.clog_one_right]
        decide

/-- Witness for C20: five calls of `PushBack` leave capacity 8 after 4
reallocations. -/
theorem C20_PushBack_capacity_power_of_two_witness :
    ∃ w k, PushBack_count (empty : SimpleVector Nat) [7, 7, 7, 7, 7] = .ok (w, k) ∧
      w.GetSize = 5 ∧ w.GetCapacity = 8 ∧ k = 4 ∧
      w.GetCapacity = 2 ^ Nat.clog 2 5 ∧ k = 1 + Nat.clog 2 5 := by
  obtain ⟨w, k, h1, -, -, h2, h3, -, -, -, h4⟩ :=
    C20_PushBack_capacity_power_of_two ([7, 7, 7, 7, 7] : List Nat) (by decide)
  have hev : PushBack_count (empty : SimpleVector Nat) [7, 7, 7, 7, 7] =
      .ok (⟨⟨[7, 7, 7, 7, 7, 0, 0, 0]⟩, 5, 8⟩, 4) := by decide
  rw [hev] at h1
  cases h1
  exact ⟨_, _, hev, rfl, rfl, rfl, h3, h4⟩

end Claims

end SimpleVectorModel
